import Mathlib
/-!
Verification development for the CodesMerger repository.

The embedding models, from the sources:
* UTF-8 encoding/decoding of Python strings (used by FileWriter for
  byte-exact size accounting and split-point search), src/utils.py;
* the FileWriter class (size-bounded splitting writer), src/utils.py;
* file discovery and inclusion (CodesMerger._should_ignore,
  _should_include, find_files and utils.matches_pattern), src/merger.py;
* the language tables (src/language_config.py) and the encoding-fallback
  reader get_file_content (src/utils.py).

Python strings are sequences of Unicode scalar values; they are modelled
as List Char.  Bytes objects are modelled as List Nat (each element < 256).
-/
set_option maxHeartbeats 1600000
set_option maxRecDepth 16384

/-- UTF-8 encoding of one Unicode scalar value, as CPython's utf-8 codec
produces it (1 to 4 bytes). -/
def encodeChar (c : Char) : List Nat :=
  if c.toNat < 128 then [c.toNat]
  else if c.toNat < 2048 then [192 + c.toNat / 64, 128 + c.toNat % 64]
  else if c.toNat < 65536 then
    [224 + c.toNat / 4096, 128 + c.toNat / 64 % 64, 128 + c.toNat % 64]
  else
    [240 + c.toNat / 262144, 128 + c.toNat / 4096 % 64, 128 + c.toNat / 64 % 64,
      128 + c.toNat % 64]

/-- Python str.encode('utf-8'). -/
def utf8Encode (s : List Char) : List Nat := s.flatMap encodeChar

/-- UTF-8 byte length of a string, i.e. len(s.encode('utf-8')). -/
def utf8Len (s : List Char) : Nat := (utf8Encode s).length

/-- Is a UTF-8 continuation byte (10xxxxxx). -/
def isCont (b : Nat) : Bool := 128 ≤ b && b < 192

/-- Two-byte UTF-8 sequence: continuation after leading byte 194-223. -/
def decodeCont1 (b : Nat) : List Nat → Option (Char × List Nat)
  | b1 :: bs1 =>
    if isCont b1 then some (Char.ofNat ((b - 192) * 64 + (b1 - 128)), bs1) else none
  | [] => none

/-- Three-byte UTF-8 sequence: continuations after leading byte 224-239;
overlong and surrogate values are rejected. -/
def decodeCont2 (b : Nat) : List Nat → Option (Char × List Nat)
  | b1 :: b2 :: bs2 =>
    if isCont b1 && isCont b2 then
      if 2048 ≤ (b - 224) * 4096 + (b1 - 128) * 64 + (b2 - 128) &&
          ((b - 224) * 4096 + (b1 - 128) * 64 + (b2 - 128) < 55296 ||
            57344 ≤ (b - 224) * 4096 + (b1 - 128) * 64 + (b2 - 128)) then
        some (Char.ofNat ((b - 224) * 4096 + (b1 - 128) * 64 + (b2 - 128)), bs2)
      else none
    else none
  | _ => none

/-- Four-byte UTF-8 sequence: continuations after leading byte 240-244;
overlong and out-of-range values are rejected. -/
def decodeCont3 (b : Nat) : List Nat → Option (Char × List Nat)
  | b1 :: b2 :: b3 :: bs3 =>
    if isCont b1 && isCont b2 && isCont b3 then
      if 65536 ≤ (b - 240) * 262144 + (b1 - 128) * 4096 + (b2 - 128) * 64 + (b3 - 128) &&
          (b - 240) * 262144 + (b1 - 128) * 4096 + (b2 - 128) * 64 + (b3 - 128) <
            1114112 then
        some (Char.ofNat
          ((b - 240) * 262144 + (b1 - 128) * 4096 + (b2 - 128) * 64 + (b3 - 128)), bs3)
      else none
    else none
  | _ => none

/-- Decode one scalar value from the front of a byte sequence (strict mode:
truncated sequences, stray continuation bytes, overlong encodings,
surrogates and out-of-range values are rejected). -/
def decodeOne : List Nat → Option (Char × List Nat)
  | [] => none
  | b :: bs =>
    if b < 128 then some (Char.ofNat b, bs)
    else if b < 194 then none
    else if b < 224 then decodeCont1 b bs
    else if b < 240 then decodeCont2 b bs
    else if b < 245 then decodeCont3 b bs
    else none

/-- Scalar-by-scalar decoding loop with fuel (one unit per leading byte). -/
def utf8DecodeGo : Nat → List Nat → Option (List Char)
  | _, [] => some []
  | 0, _ :: _ => none
  | fuel + 1, b :: bs =>
    match decodeOne (b :: bs) with
    | some (c, rest) => (utf8DecodeGo fuel rest).map (c :: ·)
    | none => none

/-- Strict UTF-8 decoding of a whole byte sequence
(CPython bytes.decode('utf-8')); the fuel l.length always suffices because
every decoded scalar consumes at least one byte. -/
def utf8Decode (l : List Nat) : Option (List Char) := utf8DecodeGo l.length l

/-- The split-point search of FileWriter.write (utils.py 212-229): try to
decode the first chunkSize bytes, decreasing chunkSize one byte at a time;
returns the first chunk that decodes, none when chunkSize reaches 0. -/
def findDecodable (bs : List Nat) : Nat → Option (List Char)
  | 0 => none
  | k + 1 =>
    match utf8Decode (bs.take (k + 1)) with
    | some c => some c
    | none => findDecodable bs k

/-- Python chunk.rfind('\n'): the greatest index holding a newline, if any. -/
def rfindNewline (c : List Char) : Option Nat :=
  match c.reverse.findIdx? (fun x => x = '\n') with
  | some j => some (c.length - 1 - j)
  | none => none

/-- The line-boundary preference of FileWriter.write (utils.py 217-219):
when the last newline of the candidate chunk sits at index > 0, the chunk is
cut just after it; otherwise it is kept whole. -/
def truncAtNewline (c : List Char) : List Char :=
  match rfindNewline c with
  | some i => if 0 < i then c.take (i + 1) else c
  | none => c

/-- Output-file naming (FileWriter._get_filename, utils.py 126-137): the
plain base name when no splitting is configured, stem_index_suffix otherwise. -/
inductive OutName where
  | base : OutName
  | split : Nat → OutName
deriving DecidableEq, Inhabited, Repr

def getFilename (splitSize idx : Nat) : OutName :=
  if splitSize = 0 then OutName.base else OutName.split idx

/-- One physical output file, as tracked by FileWriter: its 1-based index,
its name, the header text it was seeded with at creation ([] when it was not
seeded), its full text content, the bytes on disk, the current_size byte
counter, and how many forced fallback chunks (utils.py 231-237) were written
into it. -/
structure OutFile where
  index : Nat
  name : OutName
  hdr : List Char
  content : List Char
  bytes : List Nat
  size : Nat
  forced : Nat
deriving DecidableEq, Inhabited, Repr

/-- FileWriter state: split_size in bytes (0 = unbounded), the captured
replicated header, the files already rolled over, and the currently open
file.  generated_files in creation order is closed ++ [cur]. -/
structure WState where
  splitSize : Nat
  header : Option (List Char)
  closed : List OutFile
  cur : OutFile
deriving DecidableEq, Inhabited, Repr

def WState.files (st : WState) : List OutFile := st.closed ++ [st.cur]

/-- FileWriter._init_new_file (utils.py 139-162): the fresh file is seeded
with the captured header exactly when the file index exceeds 1; current_size
restarts at the header's UTF-8 byte length (or 0). -/
def initNewFile (splitSize : Nat) (header : Option (List Char)) (idx : Nat) : OutFile :=
  match header with
  | some h =>
    if 1 < idx then
      { index := idx, name := getFilename splitSize idx, hdr := h, content := h,
        bytes := utf8Encode h, size := utf8Len h, forced := 0 }
    else
      { index := idx, name := getFilename splitSize idx, hdr := [], content := [],
        bytes := [], size := 0, forced := 0 }
  | none =>
    { index := idx, name := getFilename splitSize idx, hdr := [], content := [],
      bytes := [], size := 0, forced := 0 }

/-- current_file_index += 1 followed by _init_new_file: the open file is
closed and a fresh one becomes current. -/
def rollover (st : WState) : WState :=
  { st with closed := st.closed ++ [st.cur],
            cur := initNewFile st.splitSize st.header (st.cur.index + 1) }

/-- FileWriter._write_chunk (utils.py 164-174): append the chunk to the open
file and add its UTF-8 byte length to current_size.  The isForced flag is
bookkeeping for which call site wrote the chunk (the forced 100-character
fallback of utils.py 231-237 versus a normal chunk). -/
def writeChunk (st : WState) (chunk : List Char) (isForced : Bool) : WState :=
  { st with cur := { st.cur with
      content := st.cur.content ++ chunk,
      bytes := st.cur.bytes ++ utf8Encode chunk,
      size := st.cur.size + utf8Len chunk,
      forced := st.cur.forced + (if isForced then 1 else 0) } }

/-- utils.py 196-202: available_size = max(0, split - size), and when it is
0 the writer rolls over to a fresh file before recomputing availability. -/
def loopState (st0 : WState) : WState :=
  if st0.splitSize - st0.cur.size = 0 then rollover st0 else st0

/-- available_size as recomputed at utils.py 202 after a rollover: the plain
difference split_size - current_size, which can be negative when a
replicated header longer than the budget was just written. -/
def loopAvail (st : WState) : Int := (st.splitSize : Int) - (st.cur.size : Int)

/-- The splitting loop of FileWriter.write (utils.py 193-237), with fuel
for the while loop; none means the fuel ran out (the Python loop does run
forever when the captured header exceeds the byte budget). -/
def writeLoop (fuel : Nat) (st0 : WState) (remaining : List Char) : Option WState :=
  match remaining, fuel with
  | [], _ => some st0
  | _ :: _, 0 => none
  | _ :: _, fuel + 1 =>
    if (utf8Len remaining : Int) ≤ loopAvail (loopState st0) then
      some (writeChunk (loopState st0) remaining false)
    else if loopAvail (loopState st0) < 0 then writeLoop fuel (loopState st0) remaining
    else
      match findDecodable (utf8Encode remaining) (loopAvail (loopState st0)).toNat with
      | some c0 =>
        writeLoop fuel (rollover (writeChunk (loopState st0) (truncAtNewline c0) false))
          (remaining.drop (truncAtNewline c0).length)
      | none =>
        writeLoop fuel (rollover (writeChunk (loopState st0) (remaining.take 100) true))
          (remaining.drop 100)

/-- utils.py 183-186: save the header on the first write whose text starts
with the two-character prefix (Python truthiness of self.header coincides
with isNone here, because a captured header always starts with those two
characters, hence is nonempty). -/
def captureHeader (st : WState) (content : List Char) : WState :=
  if st.header = none ∧ ['#', ' '].isPrefixOf content then
    { st with header := some content } else st

/-- FileWriter.write (utils.py 176-237). -/
def FileWriter.write (fuel : Nat) (st : WState) (content : List Char) : Option WState :=
  if (captureHeader st content).splitSize = 0 then
    some (writeChunk (captureHeader st content) content false)
  else writeLoop fuel (captureHeader st content) content

/-- A sequence of FileWriter.write calls. -/
def FileWriter.writeAll (fuel : Nat) (st : WState) : List (List Char) → Option WState
  | [] => some st
  | c :: cs =>
    match FileWriter.write fuel st c with
    | some st1 => FileWriter.writeAll fuel st1 cs
    | none => none

/-- FileWriter.__init__ (utils.py 98-124): split_size arrives in KB and is
converted to bytes; the first file (index 1) is created immediately, before
any header can have been captured. -/
def FileWriter.init (splitKB : Nat) : WState :=
  { splitSize := splitKB * 1024, header := none, closed := [],
    cur := initNewFile (splitKB * 1024) none 1 }

/-- The strip of one generated file: its content minus the header it was
seeded with at creation (files that were never seeded lose nothing). -/
def stripFile (f : OutFile) : List Char := f.content.drop f.hdr.length

/-- Concatenation of all generated files with each seeded header stripped. -/
def strippedConcat (st : WState) : List Char := (st.files.map stripFile).flatten

/-- Per-file coherence: byte counters agree with the content, the seeded
header really is a prefix, a file holds at most one forced fallback chunk,
and a file without a forced chunk respects the byte budget B (when B > 0). -/
structure GoodFile (B : Nat) (f : OutFile) : Prop where
  size_eq : f.size = utf8Len f.content
  bytes_eq : f.bytes = utf8Encode f.content
  hdr_pre : f.hdr <+: f.content
  forced_le : f.forced ≤ 1
  bound : B ≠ 0 → f.forced = 0 → f.size ≤ B
  name_eq : f.name = getFilename B f.index

/-- Invariant of every reachable FileWriter state. -/
structure WInv (st : WState) : Prop where
  files_good : ∀ f ∈ st.files, GoodFile st.splitSize f
  header_pre : ∀ h, st.header = some h → ['#', ' '].isPrefixOf h = true
  header_le : ∀ h, st.header = some h → st.splitSize ≠ 0 → utf8Len h ≤ st.splitSize
  cur_forced : st.cur.forced = 0
  cur_idx : st.cur.index = st.closed.length + 1
  idx_map : st.files.map (fun f => f.index) = List.range' 1 st.files.length
  zero_closed : st.splitSize = 0 → st.closed = []
/-- The per-file markdown block built by CodesMerger.process_file
(merger.py 193-196): heading, blank line, fenced block with the language
tag, the file content, closing fence, blank line. -/
def formatBlock (relPath lang content : List Char) : List Char :=
  "## ".toList ++ relPath ++ "\n\n".toList ++ "```".toList ++ lang ++ "\n".toList ++
    content ++ "\n```\n\n".toList

/-- The stripping operation exactly as worded in the spec claim: the
replicated header prefix is removed from every generated file after the
first (whether or not that file was actually seeded with it). -/
def claimStripped (st : WState) : List Char :=
  match st.files with
  | [] => []
  | f :: rest =>
    f.content ++ (rest.map (fun g => g.content.drop (st.header.getD []).length)).flatten

/-- Scan the body of a bracket character class up to the closing bracket
(fnmatch.translate): returns the class items and the pattern after it. -/
def scanClass : List Char → Option (List Char × List Char)
  | [] => none
  | c :: rest =>
    if c = ']' then some ([], rest)
    else (scanClass rest).map (fun ab => (c :: ab.1, ab.2))

/-- Parse what follows an opening bracket: optional negation, and a leading
close-bracket taken literally (fnmatch semantics). -/
def splitClass (l : List Char) : Option (Bool × List Char × List Char) :=
  match l with
  | '!' :: ']' :: rest => (scanClass rest).map (fun ab => (true, ']' :: ab.1, ab.2))
  | '!' :: rest => (scanClass rest).map (fun ab => (true, ab.1, ab.2))
  | ']' :: rest => (scanClass rest).map (fun ab => (false, ']' :: ab.1, ab.2))
  | rest => (scanClass rest).map (fun ab => (false, ab.1, ab.2))

/-- Membership of a character in class items, x-y ranges included. -/
def classMatch : List Char → Char → Bool
  | [], _ => false
  | x :: '-' :: y :: rest, c => (decide (x ≤ c) && decide (c ≤ y)) || classMatch rest c
  | x :: rest, c => (x == c) || classMatch rest c

/-- One step of glob matching; the fuel only serves Lean totality, every
call site supplies pattern.length + string.length + 1 which the measure
argument shows is never exhausted (each step shrinks pattern or string). -/
def globMatchGo : Nat → List Char → List Char → Bool
  | 0, _, _ => false
  | _ + 1, [], s => s.isEmpty
  | fuel + 1, '*' :: ps, [] => globMatchGo fuel ps []
  | fuel + 1, '*' :: ps, c :: s1 =>
    globMatchGo fuel ps (c :: s1) || globMatchGo fuel ('*' :: ps) s1
  | fuel + 1, '?' :: ps, _ :: s1 => globMatchGo fuel ps s1
  | _ + 1, '?' :: _, [] => false
  | fuel + 1, '[' :: ps, c :: s1 =>
    match splitClass ps with
    | some (neg, items, rest) => (classMatch items c != neg) && globMatchGo fuel rest s1
    | none => (c == '[') && globMatchGo fuel ps s1
  | _ + 1, '[' :: _, [] => false
  | fuel + 1, p :: ps, c :: s1 => (p == c) && globMatchGo fuel ps s1
  | _ + 1, _ :: _, [] => false

/-- fnmatch.fnmatch on a POSIX system (os.path.normcase is the identity):
glob semantics with *, ?, bracket classes and literal characters. -/
def globMatch (pat s : List Char) : Bool :=
  globMatchGo (pat.length + s.length + 1) pat s

/-- A Python pathlib.Path as the discovery logic consumes it: final name,
full path string, and suffix (the final extension including the dot). -/
structure PyPath where
  name : String
  full : String
  suffix : String
deriving DecidableEq, Inhabited, Repr

/-- One filesystem object visited by source_dir.rglob, with its ancestor
directories (Path.parents). -/
structure FsEntry where
  path : PyPath
  isFile : Bool
  parents : List PyPath
deriving DecidableEq, Inhabited, Repr

/-- The filter configuration a CodesMerger instance holds. -/
structure MergerConfig where
  languages : List String
  filePatterns : List String
  ignorePatterns : List String
deriving Inhabited, Repr

/-- SUPPORTED_LANGUAGES (language_config.py 11-23). -/
def SUPPORTED_LANGUAGES : List (String × List String) :=
  [("python", [".py", ".pyw", ".pyx"]),
   ("java", [".java"]),
   ("cpp", [".cpp", ".cc", ".cxx", ".hpp", ".hh", ".hxx", ".h"]),
   ("javascript", [".js", ".jsx", ".ts", ".tsx"]),
   ("go", [".go"]),
   ("rust", [".rs"]),
   ("c", [".c", ".h"]),
   ("html", [".html", ".htm", ".css"]),
   ("shell", [".sh", ".bash", ".zsh"]),
   ("csharp", [".cs"]),
   ("php", [".php", ".phtml", ".php3", ".php4", ".php5", ".phps"])]

/-- The extension set a merger accumulates from its languages
(merger.py 75-80). -/
def extensions (cfg : MergerConfig) : List String :=
  cfg.languages.flatMap (fun l => ((SUPPORTED_LANGUAGES.lookup l).getD []))

/-- utils.matches_pattern (utils.py 69-89): empty pattern list never
matches; otherwise a glob hit on the bare name or on the full path string
counts. -/
def matches_pattern (p : PyPath) (patterns : List String) : Bool :=
  patterns.any (fun pat => globMatch pat.toList p.name.toList
    || globMatch pat.toList p.full.toList)

/-- CodesMerger._should_ignore (merger.py 97-110). -/
def should_ignore (ignorePatterns : List String) (p : PyPath) : Bool :=
  ignorePatterns.any (fun pat => globMatch pat.toList p.name.toList
    || globMatch pat.toList p.full.toList)

/-- CodesMerger._should_include (merger.py 112-134): fail closed with no
filters, else pattern match or extension membership. -/
def should_include (cfg : MergerConfig) (p : PyPath) : Bool :=
  if cfg.languages.isEmpty && cfg.filePatterns.isEmpty then false
  else if !cfg.filePatterns.isEmpty && matches_pattern p cfg.filePatterns then true
  else if !cfg.languages.isEmpty && (extensions cfg).contains p.suffix then true
  else false

/-- CodesMerger.find_files (merger.py 136-169): keep regular files that are
not ignored (themselves or any ancestor) and pass _should_include, in
enumeration order. -/
def find_files (cfg : MergerConfig) (entries : List FsEntry) : List FsEntry :=
  entries.filter (fun e => e.isFile
    && !(should_ignore cfg.ignorePatterns e.path
          || e.parents.any (fun par => should_ignore cfg.ignorePatterns par))
    && should_include cfg e.path)

/-- FILE_EXTENSION_LANGUAGE_MAP (language_config.py 26-58). -/
def FILE_EXTENSION_LANGUAGE_MAP : List (String × String) :=
  [(".py", "python"), (".pyw", "python"), (".pyx", "python"),
   (".java", "java"),
   (".cpp", "cpp"), (".cc", "cpp"), (".cxx", "cpp"), (".hpp", "cpp"),
   (".hh", "cpp"), (".hxx", "cpp"), (".h", "cpp"),
   (".js", "javascript"), (".jsx", "javascript"),
   (".ts", "typescript"), (".tsx", "typescript"),
   (".go", "go"),
   (".rs", "rust"),
   (".c", "c"),
   (".html", "html"), (".htm", "html"), (".css", "html"),
   (".sh", "shell"), (".bash", "shell"), (".zsh", "shell"),
   (".cs", "csharp"),
   (".php", "php"), (".phtml", "php"), (".php3", "php"), (".php4", "php"),
   (".php5", "php"), (".phps", "php")]

/-- Python str.lower on extensions (ASCII case folding, spelled out on the
character list so that it evaluates inside the kernel). -/
def lowerExt (s : String) : String := String.mk (s.data.map Char.toLower)

/-- utils.get_language_by_extension (utils.py 57-67): lower-case the
suffix, look it up, default to plaintext. -/
def get_language_by_extension (suffix : String) : String :=
  (FILE_EXTENSION_LANGUAGE_MAP.lookup (lowerExt suffix)).getD "plaintext"

/-- Pair up bytes into UTF-16 code units (little- or big-endian). -/
def utf16Units (le : Bool) : List Nat → Option (List Nat)
  | [] => some []
  | [_] => none
  | a :: b :: rest =>
    (utf16Units le rest).map ((if le then b * 256 + a else a * 256 + b) :: ·)

/-- Combine UTF-16 code units, pairing surrogates; unpaired surrogates are
a decode error. -/
def utf16Combine : List Nat → Option (List Char)
  | [] => some []
  | u :: us =>
    if u < 55296 || 57344 ≤ u then (utf16Combine us).map (Char.ofNat u :: ·)
    else if u < 56320 then
      match us with
      | u2 :: us2 =>
        if 56320 ≤ u2 && u2 < 57344 then
          (utf16Combine us2).map
            (Char.ofNat (65536 + (u - 55296) * 1024 + (u2 - 56320)) :: ·)
        else none
      | [] => none
    else none

/-- CPython codec utf-16: sniff the BOM (FF FE little endian, FE FF big
endian), default to the native little-endian order without one. -/
def utf16Decode (bs : List Nat) : Option (List Char) :=
  match bs with
  | 255 :: 254 :: rest => (utf16Units true rest).bind utf16Combine
  | 254 :: 255 :: rest => (utf16Units false rest).bind utf16Combine
  | _ => (utf16Units true bs).bind utf16Combine

/-- CPython codec latin-1: total on bytes, each byte is the scalar value. -/
def latin1Decode (bs : List Nat) : List Char := bs.map Char.ofNat

/-- CPython codec gb18030 in the fallback chain of utils.get_file_content.
The branch is dead code: the latin-1 attempt before it is total, so no
byte sequence ever reaches it (see get_file_content_latin1 below); it is
modelled as a decoder that never succeeds, which the theorems never rely
on. -/
def gb18030Decode (_ : List Nat) : Option (List Char) := none

/-- The ordered fallback ladder of utils.get_file_content (utils.py 30). -/
def fallbackEncodings : List (List Nat → Option (List Char)) :=
  [utf16Decode, fun bs => some (latin1Decode bs), gb18030Decode]

/-- The for-loop of utils.get_file_content (utils.py 31-35): first
successful decode wins, empty string when every encoding fails. -/
def tryEncodings : List (List Nat → Option (List Char)) → List Nat → List Char
  | [], _ => []
  | d :: ds, bs =>
    match d bs with
    | some s => s
    | none => tryEncodings ds bs

/-- utils.get_file_content (utils.py 17-40): none models a path that
cannot be opened (the generic except branch); otherwise strict UTF-8
first, then the fallback ladder.  The function is total: it never raises
to its caller. -/
def get_file_content (file : Option (List Nat)) : List Char :=
  match file with
  | none => []
  | some bs =>
    match utf8Decode bs with
    | some s => s
    | none => tryEncodings fallbackEncodings bs

/-- What FileWriter._init_new_file does to a pre-existing target file
(utils.py 139-162): whether an exception is raised, whether the
warning branch runs, and the bytes the target holds afterwards. -/
structure FsInitResult where
  raised : Bool
  warned : Bool
  targetText : List Char
deriving DecidableEq, Repr

/-- FileWriter._init_new_file against the filesystem: the existence check
at utils.py 147 only logs a warning; write_text then unconditionally
replaces the target with the header or the empty string, and no exception
is ever raised. -/
def init_new_file_fs (preexisting : Option (List Char)) (force : Bool)
    (header : Option (List Char)) (idx : Nat) : FsInitResult :=
  { raised := false,
    warned := preexisting.isSome && !force,
    targetText :=
      match header with
      | some h => if 1 < idx then h else []
      | none => [] }

/-- Concrete run for the C10 counterexample: budget 1 KB; 1022 bytes fill
the first file to within 2 bytes, a 3-byte scalar forces the fallback
chunk and leaves a fresh unseeded file 2, and only then does a write
starting with the two-character header prefix arrive. -/
def c10ws : List (List Char) := [List.replicate 1022 'a', ['€'], ['#', ' ', 'h', 'i']]

def c10run : WState := (FileWriter.writeAll 9 (FileWriter.init 1) c10ws).getD default

/-- Concrete run for the C3 counterexample: one formatted block of 1057
bytes written under a 1 KB budget. -/
def c3block : List Char := formatBlock "big.py".toList "python".toList (List.replicate 1030 'a')

def c3run : WState := (FileWriter.writeAll 9 (FileWriter.init 1) [c3block]).getD default

/-- b'Hello World'.encode('utf-16'): BOM FF FE then little-endian pairs. -/
def helloUtf16 : List Nat :=
  [255, 254, 72, 0, 101, 0, 108, 0, 108, 0, 111, 0, 32, 0, 87, 0, 111, 0,
   114, 0, 108, 0, 100, 0]

def c1ws : List (List Char) := ["# h\n".toList, "ab".toList]

def c1run : WState := (FileWriter.writeAll 5 (FileWriter.init 1) c1ws).getD default

def c2ws : List (List Char) := ["# t\n".toList, ['€', 'x']]

def c2run : WState := (FileWriter.writeAll 5 (FileWriter.init 1) c2ws).getD default

def c3blocks : List (List Char × List Char × List Char) :=
  [("a.py".toList, "python".toList, "xx".toList),
   ("b.py".toList, "python".toList, "yy".toList)]

def c3doc : List Char := "# doc\n\n".toList

def c3amdrun : WState :=
  (FileWriter.writeAll 9 (FileWriter.init 1)
    (c3doc :: c3blocks.map (fun t => formatBlock t.1 t.2.1 t.2.2))).getD default

def c5cfg : MergerConfig :=
  { languages := [], filePatterns := ["*.py"], ignorePatterns := ["build"] }

def c5entry : FsEntry :=
  { path := { name := "test.py", full := "src/test.py", suffix := ".py" },
    isFile := true,
    parents := [{ name := "src", full := "src", suffix := "" }] }

def c6run : WState :=
  (FileWriter.writeAll 5 (FileWriter.init 1) ["hello".toList, "# hi".toList]).getD default

def c6ws2 : List (List Char) := ["# h\n".toList, List.replicate 1500 'a']

def c6run2 : WState := (FileWriter.writeAll 20 (FileWriter.init 1) c6ws2).getD default

def c9ws : List (List Char) := ["# n\n".toList, List.replicate 1300 'b']

def c9run : WState := (FileWriter.writeAll 20 (FileWriter.init 1) c9ws).getD default

def c10ws2 : List (List Char) := ["pq".toList, "# r\n".toList, "st".toList]

def c10run2 : WState := (FileWriter.writeAll 9 (FileWriter.init 1) c10ws2).getD default

/-- The splitting loop of FileWriter.write (utils.py 193-237) observed
stepwise: the very same loop body as writeLoop, but returning the writer
state and the remaining text after n iterations of the while loop instead
of an Option — this is the on-disk state the real program has reached after
n iterations, meaningful also for runs in which the loop never terminates
(files the loop has closed are already written out in full). -/
def writeLoopSteps (n : Nat) (st0 : WState) (remaining : List Char) : WState × List Char :=
  match remaining, n with
  | [], _ => (st0, [])
  | _ :: _, 0 => (st0, remaining)
  | _ :: _, n + 1 =>
    if (utf8Len remaining : Int) ≤ loopAvail (loopState st0) then
      (writeChunk (loopState st0) remaining false, [])
    else if loopAvail (loopState st0) < 0 then writeLoopSteps n (loopState st0) remaining
    else
      match findDecodable (utf8Encode remaining) (loopAvail (loopState st0)).toNat with
      | some c0 =>
        writeLoopSteps n (rollover (writeChunk (loopState st0) (truncAtNewline c0) false))
          (remaining.drop (truncAtNewline c0).length)
      | none =>
        writeLoopSteps n (rollover (writeChunk (loopState st0) (remaining.take 100) true))
          (remaining.drop 100)

/-- A single write whose text is a 1028-byte header (two ASCII characters
of prefix plus 342 three-byte euro signs), against a 1 KB budget: the
capture at utils.py 183-186 stores all of it and every subsequent rollover
seeds the fresh file with all 1028 bytes, leaving a negative
available_size forever. -/
def c1w : List Char := ['#', ' '] ++ List.replicate 342 '€'

/-- The writer state three loop iterations into the never-terminating
write of c1w: file 1 closed with 1022 bytes, files 2 and 3 closed holding
exactly the seeded 1028-byte header, file 4 open. -/
def c1spin : WState × List Char :=
  writeLoopSteps 3 (captureHeader (FileWriter.init 1) c1w) c1w

theorem decodeCont1_length {b : Nat} {l : List Nat} {c : Char} {rest : List Nat}
    (h : decodeCont1 b l = some (c, rest)) : rest.length < l.length := by
  match l with
  | [] => simp [decodeCont1] at h
  | b1 :: bs1 =>
    rw [decodeCont1] at h
    split at h
    · cases h
      simp
    · cases h

theorem decodeCont2_length {b : Nat} {l : List Nat} {c : Char} {rest : List Nat}
    (h : decodeCont2 b l = some (c, rest)) : rest.length < l.length := by
  match l with
  | [] => simp [decodeCont2] at h
  | [b1] => simp [decodeCont2] at h
  | b1 :: b2 :: bs2 =>
    rw [decodeCont2] at h
    split at h
    · split at h
      · cases h
        simp
        omega
      · cases h
    · cases h

theorem decodeCont3_length {b : Nat} {l : List Nat} {c : Char} {rest : List Nat}
    (h : decodeCont3 b l = some (c, rest)) : rest.length < l.length := by
  match l with
  | [] => simp [decodeCont3] at h
  | [b1] => simp [decodeCont3] at h
  | [b1, b2] => simp [decodeCont3] at h
  | b1 :: b2 :: b3 :: bs3 =>
    rw [decodeCont3] at h
    split at h
    · split at h
      · cases h
        simp
        omega
      · cases h
    · cases h

theorem decodeOne_length {l : List Nat} {c : Char} {rest : List Nat}
    (h : decodeOne l = some (c, rest)) : rest.length < l.length := by
  match l with
  | [] => simp [decodeOne] at h
  | b :: bs =>
    rw [decodeOne] at h
    split_ifs at h
    · cases h
      simp
    · have := decodeCont1_length h
      simp
      omega
    · have := decodeCont2_length h
      simp
      omega
    · have := decodeCont3_length h
      simp
      omega

theorem utf8DecodeGo_congr :
    ∀ (f1 f2 : Nat) (l : List Nat), l.length ≤ f1 → l.length ≤ f2 →
      utf8DecodeGo f1 l = utf8DecodeGo f2 l := by
  intro f1
  induction f1 with
  | zero =>
    intro f2 l h1 h2
    cases l with
    | nil => cases f2 <;> rfl
    | cons b bs => simp at h1
  | succ f1 ih =>
    intro f2 l h1 h2
    cases l with
    | nil => cases f2 <;> rfl
    | cons b bs =>
      cases f2 with
      | zero => simp at h2
      | succ f2x =>
        rw [utf8DecodeGo, utf8DecodeGo]
        cases hd : decodeOne (b :: bs) with
        | none => rfl
        | some cr =>
          obtain ⟨c, rest⟩ := cr
          have hlen := decodeOne_length hd
          simp only [List.length_cons] at h1 h2 hlen
          show (utf8DecodeGo f1 rest).map (c :: ·) = (utf8DecodeGo f2x rest).map (c :: ·)
          rw [ih f2x rest (by omega) (by omega)]

theorem utf8Decode_nil : utf8Decode [] = some [] := rfl

theorem utf8Decode_decodeOne_some {l : List Nat} {c : Char} {rest : List Nat}
    (h : decodeOne l = some (c, rest)) :
    utf8Decode l = (utf8Decode rest).map (c :: ·) := by
  cases l with
  | nil => simp [decodeOne] at h
  | cons b bs =>
    have hlen := decodeOne_length h
    simp only [List.length_cons] at hlen
    rw [utf8Decode, List.length_cons, utf8DecodeGo, h]
    show (utf8DecodeGo bs.length rest).map (c :: ·) = (utf8Decode rest).map (c :: ·)
    rw [utf8DecodeGo_congr bs.length rest.length rest (by omega) (by omega)]
    rfl

theorem utf8Decode_decodeOne_none {l : List Nat} (hne : l ≠ [])
    (h : decodeOne l = none) : utf8Decode l = none := by
  cases l with
  | nil => exact absurd rfl hne
  | cons b bs =>
    rw [utf8Decode, List.length_cons, utf8DecodeGo, h]

theorem char_valid_nat (c : Char) :
    c.toNat < 55296 ∨ (57344 ≤ c.toNat ∧ c.toNat < 1114112) := c.valid

theorem encodeChar_ne_nil (c : Char) : encodeChar c ≠ [] := by
  rw [encodeChar]
  split_ifs <;> simp

/-- Decoding a correctly encoded scalar at the front of any byte stream
consumes exactly that scalar and leaves the rest untouched. -/
theorem decodeOne_encodeChar (c : Char) (bs : List Nat) :
    decodeOne (encodeChar c ++ bs) = some (c, bs) := by
  have hval := char_valid_nat c
  have hofn : Char.ofNat c.toNat = c := Char.ofNat_toNat c
  by_cases h1 : c.toNat < 128
  · rw [encodeChar, if_pos h1]
    simp only [List.cons_append, List.nil_append]
    rw [decodeOne]
    rw [if_pos h1, hofn]
  · by_cases h2 : c.toNat < 2048
    · rw [encodeChar, if_neg h1, if_pos h2]
      simp only [List.cons_append, List.nil_append]
      rw [decodeOne]
      rw [if_neg (by omega), if_neg (by omega), if_pos (by omega)]
      rw [decodeCont1]
      rw [if_pos (by simp [isCont]; omega)]
      have hvv : (192 + c.toNat / 64 - 192) * 64 + (128 + c.toNat % 64 - 128) = c.toNat := by
        omega
      rw [hvv, hofn]
    · by_cases h3 : c.toNat < 65536
      · rw [encodeChar, if_neg h1, if_neg h2, if_pos h3]
        simp only [List.cons_append, List.nil_append]
        rw [decodeOne]
        rw [if_neg (by omega), if_neg (by omega), if_neg (by omega), if_pos (by omega)]
        rw [decodeCont2]
        rw [if_pos (by simp [isCont]; omega)]
        have hvv : (224 + c.toNat / 4096 - 224) * 4096 + (128 + c.toNat / 64 % 64 - 128) * 64 +
            (128 + c.toNat % 64 - 128) = c.toNat := by omega
        rw [hvv]
        rw [if_pos (by simp; omega), hofn]
      · rw [encodeChar, if_neg h1, if_neg h2, if_neg h3]
        simp only [List.cons_append, List.nil_append]
        rw [decodeOne]
        rw [if_neg (by omega), if_neg (by omega), if_neg (by omega), if_neg (by omega),
          if_pos (by omega)]
        rw [decodeCont3]
        rw [if_pos (by simp [isCont]; omega)]
        have hvv : (240 + c.toNat / 262144 - 240) * 262144 +
            (128 + c.toNat / 4096 % 64 - 128) * 4096 +
            (128 + c.toNat / 64 % 64 - 128) * 64 + (128 + c.toNat % 64 - 128) = c.toNat := by
          omega
        rw [hvv]
        rw [if_pos (by simp; omega), hofn]

theorem utf8Decode_encodeChar (c : Char) (bs : List Nat) :
    utf8Decode (encodeChar c ++ bs) = (utf8Decode bs).map (c :: ·) :=
  utf8Decode_decodeOne_some (decodeOne_encodeChar c bs)

/-- Round trip: decoding an encoded string gives the string back. -/
theorem utf8Decode_utf8Encode (s : List Char) : utf8Decode (utf8Encode s) = some s := by
  induction s with
  | nil => exact utf8Decode_nil
  | cons c s ih =>
    have hstep : utf8Encode (c :: s) = encodeChar c ++ utf8Encode s := by
      simp [utf8Encode]
    rw [hstep, utf8Decode_encodeChar, ih]
    rfl

theorem encodeChar_length_le (c : Char) : (encodeChar c).length ≤ 4 := by
  rw [encodeChar]
  split_ifs <;> simp

/-- A strict, nonempty prefix of one scalar value's encoding never decodes:
the leading byte demands continuation bytes that are missing. -/
theorem decodeOne_encodeChar_take (c : Char) (k : Nat) (h1 : 0 < k)
    (h2 : k < (encodeChar c).length) :
    decodeOne ((encodeChar c).take k) = none := by
  have hval := char_valid_nat c
  by_cases hc1 : c.toNat < 128
  · rw [encodeChar, if_pos hc1] at h2
    simp at h2
    omega
  · by_cases hc2 : c.toNat < 2048
    · rw [encodeChar, if_neg hc1, if_pos hc2] at h2 ⊢
      simp only [List.length_cons, List.length_nil] at h2
      have hk : k = 1 := by omega
      subst hk
      simp only [List.take_succ_cons, List.take_zero]
      rw [decodeOne]
      rw [if_neg (by omega), if_neg (by omega), if_pos (by omega)]
      rfl
    · by_cases hc3 : c.toNat < 65536
      · rw [encodeChar, if_neg hc1, if_neg hc2, if_pos hc3] at h2 ⊢
        simp only [List.length_cons, List.length_nil] at h2
        interval_cases k
        · simp only [List.take_succ_cons, List.take_zero]
          rw [decodeOne]
          rw [if_neg (by omega), if_neg (by omega), if_neg (by omega), if_pos (by omega)]
          rfl
        · simp only [List.take_succ_cons, List.take_zero]
          rw [decodeOne]
          rw [if_neg (by omega), if_neg (by omega), if_neg (by omega), if_pos (by omega)]
          rfl
      · rw [encodeChar, if_neg hc1, if_neg hc2, if_neg hc3] at h2 ⊢
        simp only [List.length_cons, List.length_nil] at h2
        have hup : c.toNat < 1114112 := by omega
        interval_cases k
        · simp only [List.take_succ_cons, List.take_zero]
          rw [decodeOne]
          rw [if_neg (by omega), if_neg (by omega), if_neg (by omega), if_neg (by omega),
            if_pos (by omega)]
          rfl
        · simp only [List.take_succ_cons, List.take_zero]
          rw [decodeOne]
          rw [if_neg (by omega), if_neg (by omega), if_neg (by omega), if_neg (by omega),
            if_pos (by omega)]
          rfl
        · simp only [List.take_succ_cons, List.take_zero]
          rw [decodeOne]
          rw [if_neg (by omega), if_neg (by omega), if_neg (by omega), if_neg (by omega),
            if_pos (by omega)]
          rfl

theorem utf8Encode_append (a b : List Char) :
    utf8Encode (a ++ b) = utf8Encode a ++ utf8Encode b := by
  simp [utf8Encode]

theorem utf8Len_append (a b : List Char) :
    utf8Len (a ++ b) = utf8Len a + utf8Len b := by
  simp [utf8Len, utf8Encode_append]

theorem utf8Len_take_le (s : List Char) (n : Nat) :
    utf8Len (s.take n) ≤ utf8Len s := by
  conv_rhs => rw [← List.take_append_drop n s]
  rw [utf8Len_append]
  omega

theorem utf8Len_le_iff_eq (s : List Char) (n : Nat) (h : utf8Len s ≤ utf8Len (s.take n)) :
    s.take n = s := by
  rcases Nat.lt_or_ge n s.length with hn | hn
  · exfalso
    have hd : s = s.take n ++ s.drop n := (List.take_append_drop n s).symm
    have h2 : utf8Len s = utf8Len (s.take n) + utf8Len (s.drop n) := by
      conv_lhs => rw [hd]
      exact utf8Len_append _ _
    have hdrop : s.drop n ≠ [] := by
      intro h0
      have := List.drop_eq_nil_iff.mp h0
      omega
    have : utf8Len (s.drop n) ≠ 0 := by
      intro h0
      cases hdd : s.drop n with
      | nil => exact hdrop hdd
      | cons x xs =>
        rw [hdd] at h0
        have : utf8Encode (x :: xs) = encodeChar x ++ utf8Encode xs := by simp [utf8Encode]
        rw [utf8Len, this] at h0
        simp at h0
        exact encodeChar_ne_nil x h0.1
    omega
  · exact List.take_of_length_le hn

/-- A prefix of an encoded string that decodes cleanly is the encoding of a
prefix of that string: decode boundaries always fall between scalar values. -/
theorem utf8Decode_take_encode (s : List Char) :
    ∀ (k : Nat) (c : List Char), utf8Decode ((utf8Encode s).take k) = some c →
    ∃ n, n ≤ s.length ∧ c = s.take n ∧ (utf8Encode s).take k = utf8Encode (s.take n) := by
  induction s with
  | nil =>
    intro k c h
    rw [show utf8Encode [] = [] from rfl] at h
    simp only [List.take_nil] at h
    rw [utf8Decode_nil] at h
    refine ⟨0, by simp, ?_, by simp [utf8Encode]⟩
    cases h
    rfl
  | cons ch s ih =>
    intro k c h
    have hcons : utf8Encode (ch :: s) = encodeChar ch ++ utf8Encode s := by
      simp [utf8Encode]
    rcases Nat.eq_zero_or_pos k with hk0 | hkpos
    · subst hk0
      simp only [List.take_zero] at h
      rw [utf8Decode_nil] at h
      refine ⟨0, by simp, ?_, by simp [utf8Encode]⟩
      cases h
      rfl
    · by_cases hkL : (encodeChar ch).length ≤ k
      · have hsplit : (utf8Encode (ch :: s)).take k
            = encodeChar ch ++ (utf8Encode s).take (k - (encodeChar ch).length) := by
          rw [hcons, List.take_append_eq_append_take, List.take_of_length_le hkL]
        rw [hsplit, utf8Decode_encodeChar] at h
        cases hdec : utf8Decode ((utf8Encode s).take (k - (encodeChar ch).length)) with
        | none =>
          rw [hdec] at h
          cases h
        | some c1 =>
          rw [hdec] at h
          obtain ⟨n, hn, hc1, hbytes⟩ := ih _ _ hdec
          refine ⟨n + 1, by simp; omega, ?_, ?_⟩
          · cases h
            rw [List.take_succ_cons, hc1]
          · rw [hsplit, hbytes, List.take_succ_cons]
            simp [utf8Encode]
      · push_neg at hkL
        have hsplit : (utf8Encode (ch :: s)).take k = (encodeChar ch).take k := by
          rw [hcons]
          exact List.take_append_of_le_length (le_of_lt hkL)
        rw [hsplit] at h
        have hne : (encodeChar ch).take k ≠ [] := by
          have h1 : ((encodeChar ch).take k).length = k := by
            rw [List.length_take]
            omega
          intro h0
          rw [h0] at h1
          simp at h1
          omega
        rw [utf8Decode_decodeOne_none hne (decodeOne_encodeChar_take ch k hkpos hkL)] at h
        cases h

theorem findDecodable_some {bs : List Nat} {k : Nat} {c : List Char}
    (h : findDecodable bs k = some c) :
    ∃ j, 1 ≤ j ∧ j ≤ k ∧ utf8Decode (bs.take j) = some c := by
  induction k with
  | zero => simp [findDecodable] at h
  | succ k ih =>
    rw [findDecodable] at h
    cases hdec : utf8Decode (bs.take (k + 1)) with
    | some c0 =>
      rw [hdec] at h
      cases h
      exact ⟨k + 1, by omega, by omega, hdec⟩
    | none =>
      rw [hdec] at h
      obtain ⟨j, hj1, hj2, hj3⟩ := ih h
      exact ⟨j, hj1, by omega, hj3⟩

theorem findDecodable_none {bs : List Nat} {k : Nat}
    (h : findDecodable bs k = none) :
    ∀ j, 1 ≤ j → j ≤ k → utf8Decode (bs.take j) = none := by
  induction k with
  | zero =>
    intro j h1 h2
    omega
  | succ k ih =>
    rw [findDecodable] at h
    cases hdec : utf8Decode (bs.take (k + 1)) with
    | some c0 =>
      rw [hdec] at h
      cases h
    | none =>
      rw [hdec] at h
      intro j h1 h2
      rcases Nat.lt_or_ge j (k + 1) with hj | hj
      · exact ih h j h1 (by omega)
      · have : j = k + 1 := by omega
        subst this
        exact hdec

/-- A successful split-point search on an encoded string yields a prefix of
the string whose byte length is within the bound. -/
theorem findDecodable_encode {s : List Char} {k : Nat} {c : List Char}
    (h : findDecodable (utf8Encode s) k = some c) :
    ∃ n, n ≤ s.length ∧ c = s.take n ∧ utf8Len c ≤ k := by
  obtain ⟨j, hj1, hj2, hj3⟩ := findDecodable_some h
  obtain ⟨n, hn, hc, hbytes⟩ := utf8Decode_take_encode s j c hj3
  refine ⟨n, hn, hc, ?_⟩
  have h1 : utf8Len c = ((utf8Encode s).take j).length := by
    rw [hbytes, hc]
    rfl
  rw [h1, List.length_take]
  omega

theorem truncAtNewline_take (c : List Char) :
    ∃ m, 0 < m ∧ truncAtNewline c = c.take m := by
  rw [truncAtNewline]
  cases hr : rfindNewline c with
  | some i =>
    by_cases hi : 0 < i
    · refine ⟨i + 1, by omega, ?_⟩
      simp [hi]
    · refine ⟨c.length + 1, by omega, ?_⟩
      simp only [if_neg hi]
      exact (List.take_of_length_le (by omega)).symm
  | none =>
    refine ⟨c.length + 1, by omega, ?_⟩
    show c = c.take (c.length + 1)
    exact (List.take_of_length_le (by omega)).symm

theorem files_rollover (st : WState) :
    (rollover st).files
      = st.files ++ [initNewFile st.splitSize st.header (st.cur.index + 1)] := by
  simp [rollover, WState.files]

theorem files_writeChunk (st : WState) (chunk : List Char) (b : Bool) :
    (writeChunk st chunk b).files = st.closed ++ [(writeChunk st chunk b).cur] := rfl

theorem stripFile_initNewFile (B : Nat) (hdr : Option (List Char)) (idx : Nat) :
    stripFile (initNewFile B hdr idx) = [] := by
  cases hdr with
  | none => simp [initNewFile, stripFile]
  | some h =>
    by_cases hidx : 1 < idx
    · simp [initNewFile, hidx, stripFile]
    · simp [initNewFile, hidx, stripFile]

theorem strippedConcat_split (st : WState) :
    strippedConcat st = (st.closed.map stripFile).flatten ++ stripFile st.cur := by
  simp [strippedConcat, WState.files]

theorem strippedConcat_rollover (st : WState) :
    strippedConcat (rollover st) = strippedConcat st := by
  rw [strippedConcat, files_rollover]
  simp [stripFile_initNewFile, strippedConcat]

theorem stripFile_writeChunk (st : WState) (chunk : List Char) (b : Bool)
    (h : st.cur.hdr <+: st.cur.content) :
    stripFile (writeChunk st chunk b).cur = stripFile st.cur ++ chunk := by
  have hle : st.cur.hdr.length ≤ st.cur.content.length := h.length_le
  simp only [writeChunk, stripFile, List.drop_append_eq_append_drop]
  rw [show st.cur.hdr.length - st.cur.content.length = 0 from by omega]
  rfl

theorem strippedConcat_writeChunk (st : WState) (chunk : List Char) (b : Bool)
    (h : st.cur.hdr <+: st.cur.content) :
    strippedConcat (writeChunk st chunk b) = strippedConcat st ++ chunk := by
  rw [strippedConcat_split st, strippedConcat_split (writeChunk st chunk b)]
  rw [show (writeChunk st chunk b).closed = st.closed from rfl]
  rw [stripFile_writeChunk st chunk b h]
  simp

theorem goodFile_initNewFile {B : Nat} {hdr : Option (List Char)} {idx : Nat}
    (hh : ∀ h, hdr = some h → B ≠ 0 → utf8Len h ≤ B) :
    GoodFile B (initNewFile B hdr idx) := by
  cases hdr with
  | none =>
    rw [initNewFile]
    exact ⟨rfl, rfl, List.nil_prefix, by simp, by simp, rfl⟩
  | some h =>
    rw [initNewFile]
    by_cases hidx : 1 < idx
    · rw [if_pos hidx]
      exact ⟨rfl, rfl, List.prefix_refl h, by simp, fun hB _ => hh h rfl hB, rfl⟩
    · rw [if_neg hidx]
      exact ⟨rfl, rfl, List.nil_prefix, by simp, by simp, rfl⟩

theorem initNewFile_index (B : Nat) (hdr : Option (List Char)) (idx : Nat) :
    (initNewFile B hdr idx).index = idx := by
  cases hdr with
  | none => rfl
  | some h =>
    rw [initNewFile]
    by_cases hidx : 1 < idx
    · rw [if_pos hidx]
    · rw [if_neg hidx]

theorem initNewFile_forced (B : Nat) (hdr : Option (List Char)) (idx : Nat) :
    (initNewFile B hdr idx).forced = 0 := by
  cases hdr with
  | none => rfl
  | some h =>
    rw [initNewFile]
    by_cases hidx : 1 < idx
    · rw [if_pos hidx]
    · rw [if_neg hidx]

theorem goodFile_chunk {B : Nat} {st : WState} (hcur : GoodFile B st.cur)
    (h0 : st.cur.forced = 0) (chunk : List Char) (flag : Bool)
    (hsz : flag = false → B ≠ 0 → st.cur.size + utf8Len chunk ≤ B) :
    GoodFile B (writeChunk st chunk flag).cur := by
  refine ⟨?_, ?_, ?_, ?_, ?_, ?_⟩
  · show st.cur.size + utf8Len chunk = utf8Len (st.cur.content ++ chunk)
    rw [utf8Len_append, hcur.size_eq]
  · show st.cur.bytes ++ utf8Encode chunk = utf8Encode (st.cur.content ++ chunk)
    rw [utf8Encode_append, hcur.bytes_eq]
  · show st.cur.hdr <+: st.cur.content ++ chunk
    exact hcur.hdr_pre.trans (List.prefix_append _ _)
  · show st.cur.forced + (if flag then 1 else 0) ≤ 1
    rw [h0]
    cases flag <;> simp
  · intro hB hf0
    show st.cur.size + utf8Len chunk ≤ B
    cases flag with
    | false => exact hsz rfl hB
    | true =>
      exfalso
      have h1 : st.cur.forced + (if true then 1 else 0) = 0 := hf0
      simp at h1
  · exact hcur.name_eq

theorem files_good_chunk {st : WState} (hi : WInv st) (chunk : List Char) (flag : Bool)
    (hsz : flag = false → st.splitSize ≠ 0 → st.cur.size + utf8Len chunk ≤ st.splitSize) :
    ∀ f ∈ (writeChunk st chunk flag).files, GoodFile st.splitSize f := by
  intro f hf
  rw [files_writeChunk] at hf
  rcases List.mem_append.mp hf with hf | hf
  · exact hi.files_good f (by simp [WState.files, hf])
  · rw [List.mem_singleton.mp hf]
    exact goodFile_chunk (hi.files_good st.cur (by simp [WState.files])) hi.cur_forced
      chunk flag hsz

theorem WInv_rollover_of (st : WState) (hB : st.splitSize ≠ 0)
    (hfg : ∀ f ∈ st.files, GoodFile st.splitSize f)
    (hhp : ∀ h, st.header = some h → ['#', ' '].isPrefixOf h = true)
    (hhl : ∀ h, st.header = some h → st.splitSize ≠ 0 → utf8Len h ≤ st.splitSize)
    (hci : st.cur.index = st.closed.length + 1)
    (him : st.files.map (fun f => f.index) = List.range' 1 st.files.length) :
    WInv (rollover st) := by
  have hfl : st.files.length = st.closed.length + 1 := by
    simp [WState.files]
  refine ⟨?_, hhp, hhl, initNewFile_forced _ _ _, ?_, ?_, fun h0 => absurd h0 hB⟩
  · intro f hf
    rw [files_rollover] at hf
    rcases List.mem_append.mp hf with hf | hf
    · exact hfg f hf
    · rw [List.mem_singleton.mp hf]
      exact goodFile_initNewFile (fun h hh hBB => hhl h hh hBB)
  · show (initNewFile st.splitSize st.header (st.cur.index + 1)).index
      = (st.closed ++ [st.cur]).length + 1
    rw [initNewFile_index]
    simp [hci]
  · rw [files_rollover, List.map_append, him]
    have hlen2 : (st.files ++ [initNewFile st.splitSize st.header (st.cur.index + 1)]).length
        = st.files.length + 1 := by simp
    rw [hlen2, List.range'_concat]
    simp only [List.map_cons, List.map_nil, initNewFile_index]
    rw [hci]
    simp
    omega

/-- Preservation: append a chunk to the open file (no budget overflow when
the chunk is not forced), then roll over to a fresh file. -/
theorem WInv_chunk_roll {st : WState} (hB : st.splitSize ≠ 0) (hi : WInv st)
    (chunk : List Char) (flag : Bool)
    (hsz : flag = false → st.splitSize ≠ 0 → st.cur.size + utf8Len chunk ≤ st.splitSize) :
    WInv (rollover (writeChunk st chunk flag)) := by
  refine WInv_rollover_of (writeChunk st chunk flag) hB
    (files_good_chunk hi chunk flag hsz) hi.header_pre hi.header_le hi.cur_idx ?_
  have h1 := hi.idx_map
  rw [files_writeChunk]
  rw [show (st.closed ++ [(writeChunk st chunk flag).cur]).length
      = (st.closed ++ [st.cur]).length from by simp]
  rw [show (st.closed ++ [(writeChunk st chunk flag).cur]).map (fun f => f.index)
      = (st.closed ++ [st.cur]).map (fun f => f.index) from by simp [writeChunk]]
  exact h1

/-- Preservation: a non-forced chunk that fits the remaining budget. -/
theorem WInv_chunk_fits {st : WState} (hi : WInv st) (chunk : List Char)
    (hsz : st.splitSize ≠ 0 → st.cur.size + utf8Len chunk ≤ st.splitSize) :
    WInv (writeChunk st chunk false) := by
  refine ⟨files_good_chunk hi chunk false (fun _ => hsz), hi.header_pre, hi.header_le,
    ?_, hi.cur_idx, ?_, hi.zero_closed⟩
  · show st.cur.forced + (if false then 1 else 0) = 0
    simp [hi.cur_forced]
  · have h1 := hi.idx_map
    rw [files_writeChunk]
    rw [show (st.closed ++ [(writeChunk st chunk false).cur]).length
        = (st.closed ++ [st.cur]).length from by simp]
    rw [show (st.closed ++ [(writeChunk st chunk false).cur]).map (fun f => f.index)
        = (st.closed ++ [st.cur]).map (fun f => f.index) from by simp [writeChunk]]
    exact h1

theorem WInv_rollover {st : WState} (hB : st.splitSize ≠ 0) (hi : WInv st) :
    WInv (rollover st) :=
  WInv_rollover_of st hB hi.files_good hi.header_pre hi.header_le hi.cur_idx hi.idx_map

theorem rollover_splitSize (st : WState) : (rollover st).splitSize = st.splitSize := rfl

theorem rollover_header (st : WState) : (rollover st).header = st.header := rfl

theorem writeChunk_splitSize (st : WState) (c : List Char) (b : Bool) :
    (writeChunk st c b).splitSize = st.splitSize := rfl

theorem writeChunk_header (st : WState) (c : List Char) (b : Bool) :
    (writeChunk st c b).header = st.header := rfl

theorem loopState_splitSize (st : WState) : (loopState st).splitSize = st.splitSize := by
  rw [loopState]
  split <;> rfl

theorem loopState_header (st : WState) : (loopState st).header = st.header := by
  rw [loopState]
  split <;> rfl

theorem strippedConcat_loopState (st : WState) :
    strippedConcat (loopState st) = strippedConcat st := by
  rw [loopState]
  split
  · exact strippedConcat_rollover st
  · rfl

theorem WInv_loopState {st : WState} (hB : st.splitSize ≠ 0) (hi : WInv st) :
    WInv (loopState st) := by
  rw [loopState]
  split
  · exact WInv_rollover hB hi
  · exact hi

theorem initNewFile_size_le {B : Nat} {hdr : Option (List Char)} {idx : Nat}
    (hh : ∀ h, hdr = some h → utf8Len h ≤ B) : (initNewFile B hdr idx).size ≤ B := by
  cases hdr with
  | none =>
    rw [initNewFile]
    simp
  | some h =>
    rw [initNewFile]
    by_cases hidx : 1 < idx
    · rw [if_pos hidx]
      exact hh h rfl
    · rw [if_neg hidx]
      simp

theorem loopAvail_nonneg {st : WState} (hB : st.splitSize ≠ 0) (hi : WInv st) :
    0 ≤ loopAvail (loopState st) := by
  rw [loopState]
  by_cases h0 : st.splitSize - st.cur.size = 0
  · rw [if_pos h0, loopAvail, rollover_splitSize]
    have hle : (rollover st).cur.size ≤ st.splitSize := by
      show (initNewFile st.splitSize st.header (st.cur.index + 1)).size ≤ st.splitSize
      exact initNewFile_size_le (fun h hh => hi.header_le h hh hB)
    omega
  · rw [if_neg h0, loopAvail]
    omega

theorem take_drop_self (s : List Char) (k : Nat) :
    s.take k ++ s.drop (s.take k).length = s := by
  have h1 : s.take ((s.take k).length) = s.take k := by
    rw [List.length_take]
    rcases le_or_lt k s.length with h | h
    · rw [Nat.min_eq_left h]
    · rw [Nat.min_eq_right (by omega), List.take_length, List.take_of_length_le (by omega)]
  conv_rhs => rw [← List.take_append_drop ((s.take k).length) s]
  rw [h1]

/-- Main loop invariant: a terminating run of the splitting loop preserves
the writer invariant, leaves split_size and the captured header unchanged,
and appends exactly the remaining text to the header-stripped output
stream. -/
theorem writeLoop_inv {fuel : Nat} {st : WState} {rem : List Char} {st' : WState}
    (hB : st.splitSize ≠ 0) (hi : WInv st)
    (h : writeLoop fuel st rem = some st') :
    WInv st' ∧ st'.splitSize = st.splitSize ∧ st'.header = st.header ∧
      strippedConcat st' = strippedConcat st ++ rem := by
  induction fuel generalizing st rem with
  | zero =>
    cases rem with
    | nil =>
      rw [writeLoop] at h
      cases h
      exact ⟨hi, rfl, rfl, by simp⟩
    | cons a rest =>
      rw [writeLoop] at h
      cases h
  | succ n ih =>
    cases rem with
    | nil =>
      rw [writeLoop] at h
      cases h
      exact ⟨hi, rfl, rfl, by simp⟩
    | cons a rest =>
      rw [writeLoop] at h
      have hiL : WInv (loopState st) := WInv_loopState hB hi
      have hLsz : (loopState st).splitSize = st.splitSize := loopState_splitSize st
      have hLhd : (loopState st).header = st.header := loopState_header st
      have hLstrip : strippedConcat (loopState st) = strippedConcat st :=
        strippedConcat_loopState st
      have havail : 0 ≤ loopAvail (loopState st) := loopAvail_nonneg hB hi
      have hLcur : (loopState st).cur.hdr <+: (loopState st).cur.content :=
        (hiL.files_good (loopState st).cur (by simp [WState.files])).hdr_pre
      by_cases hfits : (utf8Len (a :: rest) : Int) ≤ loopAvail (loopState st)
      · rw [if_pos hfits] at h
        cases h
        refine ⟨?_, ?_, ?_, ?_⟩
        · apply WInv_chunk_fits hiL
          intro _
          rw [loopAvail, hLsz] at hfits
          omega
        · rw [writeChunk_splitSize, hLsz]
        · rw [writeChunk_header, hLhd]
        · rw [strippedConcat_writeChunk _ _ _ hLcur, hLstrip]
      · rw [if_neg hfits] at h
        by_cases hneg : loopAvail (loopState st) < 0
        · exfalso
          omega
        · rw [if_neg hneg] at h
          cases hfd : findDecodable (utf8Encode (a :: rest)) (loopAvail (loopState st)).toNat
            with
          | some c0 =>
            rw [hfd] at h
            obtain ⟨n0, hn0, hc0, hlen0⟩ := findDecodable_encode hfd
            obtain ⟨m, hm, htr⟩ := truncAtNewline_take c0
            have hctake : truncAtNewline c0 = (a :: rest).take (min m n0) := by
              rw [htr, hc0, List.take_take]
            have hclen : utf8Len (truncAtNewline c0) ≤ (loopAvail (loopState st)).toNat := by
              have h1 : utf8Len (truncAtNewline c0) ≤ utf8Len c0 := by
                rw [htr]
                exact utf8Len_take_le c0 m
              omega
            have hsz : (loopState st).cur.size + utf8Len (truncAtNewline c0)
                ≤ st.splitSize := by
              rw [loopAvail, hLsz] at havail hclen
              omega
            have hi2 : WInv (rollover (writeChunk (loopState st) (truncAtNewline c0)
                false)) := by
              apply WInv_chunk_roll (by rw [hLsz]; exact hB) hiL
              intro _ _
              rw [hLsz]
              exact hsz
            have hB2 : (rollover (writeChunk (loopState st) (truncAtNewline c0)
                false)).splitSize ≠ 0 := by
              rw [rollover_splitSize, writeChunk_splitSize, hLsz]
              exact hB
            obtain ⟨ha1, ha2, ha3, ha4⟩ := ih hB2 hi2 h
            refine ⟨ha1, ?_, ?_, ?_⟩
            · rw [ha2, rollover_splitSize, writeChunk_splitSize, hLsz]
            · rw [ha3, rollover_header, writeChunk_header, hLhd]
            · have hdecomp : truncAtNewline c0
                  ++ (a :: rest).drop (truncAtNewline c0).length = a :: rest := by
                rw [hctake]
                exact take_drop_self (a :: rest) (min m n0)
              rw [ha4, strippedConcat_rollover, strippedConcat_writeChunk _ _ _ hLcur,
                hLstrip, List.append_assoc, hdecomp]
          | none =>
            rw [hfd] at h
            have hi2 : WInv (rollover (writeChunk (loopState st) ((a :: rest).take 100)
                true)) := by
              apply WInv_chunk_roll (by rw [hLsz]; exact hB) hiL
              intro hff _
              cases hff
            have hB2 : (rollover (writeChunk (loopState st) ((a :: rest).take 100)
                true)).splitSize ≠ 0 := by
              rw [rollover_splitSize, writeChunk_splitSize, hLsz]
              exact hB
            obtain ⟨ha1, ha2, ha3, ha4⟩ := ih hB2 hi2 h
            refine ⟨ha1, ?_, ?_, ?_⟩
            · rw [ha2, rollover_splitSize, writeChunk_splitSize, hLsz]
            · rw [ha3, rollover_header, writeChunk_header, hLhd]
            · rw [ha4, strippedConcat_rollover, strippedConcat_writeChunk _ _ _ hLcur,
                hLstrip, List.append_assoc]
              rw [List.take_append_drop 100 (a :: rest)]

theorem isPrefixOf_hash_space {content : List Char}
    (h : ['#', ' '].isPrefixOf content = true) :
    ∃ t, content = '#' :: ' ' :: t := by
  cases content with
  | nil => simp [List.isPrefixOf] at h
  | cons a s =>
    cases s with
    | nil => simp [List.isPrefixOf] at h
    | cons b t =>
      simp [List.isPrefixOf] at h
      exact ⟨t, by rw [← h.1, ← h.2]⟩

theorem initNewFile_size_some (B : Nat) (h : List Char) (idx : Nat) (hidx : 1 < idx) :
    (initNewFile B (some h) idx).size = utf8Len h := by
  rw [initNewFile, if_pos hidx]

/-- utils.py 195-237 never terminates once a header longer than the byte
budget has been captured and the open file is already at (or beyond) the
budget with text still pending: every iteration rolls over to a fresh file
that the header alone overfills, and available_size stays negative. -/
theorem writeLoop_none_big_header {fuel : Nat} {st : WState} {rem : List Char}
    {hdr : List Char} (hrem : rem ≠ []) (hh : st.header = some hdr)
    (hbig : st.splitSize < utf8Len hdr) (hsz : st.splitSize ≤ st.cur.size)
    (hidx : 1 ≤ st.cur.index) :
    writeLoop fuel st rem = none := by
  induction fuel generalizing st rem with
  | zero =>
    cases rem with
    | nil => exact absurd rfl hrem
    | cons a rest => rw [writeLoop]
  | succ n ih =>
    cases rem with
    | nil => exact absurd rfl hrem
    | cons a rest =>
      rw [writeLoop]
      have h0 : st.splitSize - st.cur.size = 0 := by omega
      have hLs : loopState st = rollover st := by rw [loopState, if_pos h0]
      have hsize : (rollover st).cur.size = utf8Len hdr := by
        show (initNewFile st.splitSize st.header (st.cur.index + 1)).size = utf8Len hdr
        rw [hh]
        exact initNewFile_size_some _ _ _ (by omega)
      have havail : loopAvail (loopState st) < 0 := by
        rw [hLs, loopAvail, rollover_splitSize, hsize]
        omega
      rw [if_neg (by omega), if_pos havail, hLs]
      have hh2 : (rollover st).header = some hdr := by
        rw [rollover_header]
        exact hh
      have hbig2 : (rollover st).splitSize < utf8Len hdr := by
        rw [rollover_splitSize]
        exact hbig
      have hsz2 : (rollover st).splitSize ≤ (rollover st).cur.size := by
        rw [rollover_splitSize, hsize]
        omega
      have hidx2 : 1 ≤ (rollover st).cur.index := by
        show 1 ≤ (initNewFile st.splitSize st.header (st.cur.index + 1)).index
        rw [initNewFile_index]
        omega
      exact ih (by simp) hh2 hbig2 hsz2 hidx2

/-- Capturing a header longer than a non-zero byte budget makes the very
write that captured it loop forever. -/
theorem writeLoop_none_capture_big {fuel : Nat} {st : WState} {content : List Char}
    (hh : st.header = some content) (hpre : ['#', ' '].isPrefixOf content = true)
    (_hB : st.splitSize ≠ 0) (hbig : st.splitSize < utf8Len content)
    (hidx : 1 ≤ st.cur.index) :
    writeLoop fuel st content = none := by
  obtain ⟨t, ht⟩ := isPrefixOf_hash_space hpre
  have hcne : content ≠ [] := by
    rw [ht]
    simp
  cases fuel with
  | zero =>
    rw [ht, writeLoop]
  | succ n =>
    rw [ht, writeLoop, ← ht]
    by_cases h0 : st.splitSize - st.cur.size = 0
    · have hLs : loopState st = rollover st := by rw [loopState, if_pos h0]
      have hsize : (rollover st).cur.size = utf8Len content := by
        show (initNewFile st.splitSize st.header (st.cur.index + 1)).size = utf8Len content
        rw [hh]
        exact initNewFile_size_some _ _ _ (by omega)
      have havail : loopAvail (loopState st) < 0 := by
        rw [hLs, loopAvail, rollover_splitSize, hsize]
        omega
      rw [if_neg (by omega), if_pos havail, hLs]
      have hh2 : (rollover st).header = some content := by
        rw [rollover_header]
        exact hh
      have hbig2 : (rollover st).splitSize < utf8Len content := by
        rw [rollover_splitSize]
        exact hbig
      have hsz2 : (rollover st).splitSize ≤ (rollover st).cur.size := by
        rw [rollover_splitSize, hsize]
        omega
      have hidx2 : 1 ≤ (rollover st).cur.index := by
        show 1 ≤ (initNewFile st.splitSize st.header (st.cur.index + 1)).index
        rw [initNewFile_index]
        omega
      exact writeLoop_none_big_header hcne hh2 hbig2 hsz2 hidx2
    · have hLs : loopState st = st := by rw [loopState, if_neg h0]
      rw [hLs]
      have havail2 : 1 ≤ loopAvail st ∧ loopAvail st < (utf8Len content : Int) := by
        rw [loopAvail]
        omega
      rw [if_neg (by omega), if_neg (by omega)]
      have hbyte : (utf8Encode content).take 1 = [35] := by
        rw [ht]
        rw [show utf8Encode ('#' :: ' ' :: t) = encodeChar '#' ++ utf8Encode (' ' :: t)
          from by simp [utf8Encode]]
        rfl
      cases hfd : findDecodable (utf8Encode content) (loopAvail st).toNat with
      | none =>
        exfalso
        have h1 := findDecodable_none hfd 1 (by omega) (by omega)
        rw [hbyte] at h1
        have h2 : utf8Decode [35] = some ['#'] := by decide
        rw [h2] at h1
        cases h1
      | some c0 =>
        obtain ⟨n0, hn0, hc0, hlen0⟩ := findDecodable_encode hfd
        obtain ⟨m, hm, htr⟩ := truncAtNewline_take c0
        have hctake : truncAtNewline c0 = content.take (min m n0) := by
          rw [htr, hc0, List.take_take]
        have hclen : utf8Len (truncAtNewline c0) < utf8Len content := by
          have h1 : utf8Len (truncAtNewline c0) ≤ utf8Len c0 := by
            rw [htr]
            exact utf8Len_take_le c0 m
          omega
        have hlt : (truncAtNewline c0).length < content.length := by
          by_contra hge
          push_neg at hge
          have heq : content.take (min m n0) = content := by
            rw [hctake] at hge
            rw [List.take_of_length_le (by rw [List.length_take] at hge; omega)]
          rw [hctake, heq] at hclen
          omega
        have hrem2 : content.drop (truncAtNewline c0).length ≠ [] := by
          rw [Ne, List.drop_eq_nil_iff]
          omega
        have hwchd : (writeChunk st (truncAtNewline c0) false).header = some content := by
          rw [writeChunk_header]
          exact hh
        have hh2 : (rollover (writeChunk st (truncAtNewline c0) false)).header
            = some content := by
          rw [rollover_header]
          exact hwchd
        have hbig2 : (rollover (writeChunk st (truncAtNewline c0) false)).splitSize
            < utf8Len content := by
          rw [rollover_splitSize, writeChunk_splitSize]
          exact hbig
        have hsz2 : (rollover (writeChunk st (truncAtNewline c0) false)).splitSize
            ≤ (rollover (writeChunk st (truncAtNewline c0) false)).cur.size := by
          rw [rollover_splitSize, writeChunk_splitSize]
          show st.splitSize ≤ (initNewFile (writeChunk st (truncAtNewline c0)
            false).splitSize (writeChunk st (truncAtNewline c0) false).header
            ((writeChunk st (truncAtNewline c0) false).cur.index + 1)).size
          rw [hwchd, initNewFile_size_some]
          · omega
          · show 1 < st.cur.index + 1
            omega
        have hidx2 : 1 ≤ (rollover (writeChunk st (truncAtNewline c0) false)).cur.index := by
          show 1 ≤ (initNewFile (writeChunk st (truncAtNewline c0)
            false).splitSize (writeChunk st (truncAtNewline c0) false).header
            ((writeChunk st (truncAtNewline c0) false).cur.index + 1)).index
          rw [initNewFile_index]
          omega
        exact writeLoop_none_big_header hrem2 hh2 hbig2 hsz2 hidx2

theorem captureHeader_splitSize (st : WState) (content : List Char) :
    (captureHeader st content).splitSize = st.splitSize := by
  rw [captureHeader]
  split <;> rfl

theorem captureHeader_files (st : WState) (content : List Char) :
    (captureHeader st content).files = st.files := by
  rw [captureHeader]
  split <;> rfl

theorem captureHeader_closed (st : WState) (content : List Char) :
    (captureHeader st content).closed = st.closed := by
  rw [captureHeader]
  split <;> rfl

theorem captureHeader_cur (st : WState) (content : List Char) :
    (captureHeader st content).cur = st.cur := by
  rw [captureHeader]
  split <;> rfl

theorem captureHeader_header (st : WState) (content : List Char) :
    (captureHeader st content).header
      = if st.header = none ∧ ['#', ' '].isPrefixOf content then some content
        else st.header := by
  rw [captureHeader]
  split
  · rfl
  · rfl

theorem strippedConcat_captureHeader (st : WState) (content : List Char) :
    strippedConcat (captureHeader st content) = strippedConcat st := by
  rw [strippedConcat, captureHeader_files, strippedConcat]

theorem WInv_captureHeader {st : WState} {content : List Char} (hi : WInv st)
    (hle : st.splitSize ≠ 0 → st.header = none → ['#', ' '].isPrefixOf content →
      utf8Len content ≤ st.splitSize) :
    WInv (captureHeader st content) := by
  rw [captureHeader]
  by_cases hcap : st.header = none ∧ ['#', ' '].isPrefixOf content
  · rw [if_pos hcap]
    refine ⟨hi.files_good, ?_, ?_, hi.cur_forced, hi.cur_idx, hi.idx_map, hi.zero_closed⟩
    · intro h hh
      cases hh
      exact hcap.2
    · intro h hh hB
      cases hh
      exact hle hB hcap.1 hcap.2
  · rw [if_neg hcap]
    exact hi

/-- FileWriter.write preserves the invariant on every terminating call,
keeps split_size, appends exactly the written text to the header-stripped
stream, and evolves the header by the capture rule of utils.py 183-186. -/
theorem fwWrite_inv {fuel : Nat} {st : WState} {content : List Char} {st' : WState}
    (hi : WInv st) (h : FileWriter.write fuel st content = some st') :
    WInv st' ∧ st'.splitSize = st.splitSize ∧
      strippedConcat st' = strippedConcat st ++ content ∧
      st'.header = (if st.header = none ∧ ['#', ' '].isPrefixOf content
        then some content else st.header) := by
  rw [FileWriter.write] at h
  by_cases hB : st.splitSize = 0
  · rw [if_pos (by rw [captureHeader_splitSize]; exact hB)] at h
    cases h
    have hic : WInv (captureHeader st content) :=
      WInv_captureHeader hi (fun hB2 _ _ => absurd hB hB2)
    have hcur : (captureHeader st content).cur.hdr <+: (captureHeader st content).cur.content :=
      (hic.files_good _ (by simp [WState.files])).hdr_pre
    refine ⟨?_, ?_, ?_, ?_⟩
    · exact WInv_chunk_fits hic content
        (fun hB2 => absurd (by rw [captureHeader_splitSize] at hB2; exact hB2) (by simp [hB]))
    · rw [writeChunk_splitSize, captureHeader_splitSize]
    · rw [strippedConcat_writeChunk _ _ _ hcur, strippedConcat_captureHeader]
    · rw [writeChunk_header, captureHeader_header]
  · rw [if_neg (by rw [captureHeader_splitSize]; exact hB)] at h
    by_cases hcap : st.header = none ∧ ['#', ' '].isPrefixOf content
    · by_cases hfit : utf8Len content ≤ st.splitSize
      · have hic : WInv (captureHeader st content) :=
          WInv_captureHeader hi (fun _ _ _ => hfit)
        obtain ⟨h1, h2, h3, h4⟩ := writeLoop_inv
          (by rw [captureHeader_splitSize]; exact hB) hic h
        refine ⟨h1, ?_, ?_, ?_⟩
        · rw [h2, captureHeader_splitSize]
        · rw [h4, strippedConcat_captureHeader]
        · rw [h3, captureHeader_header]
      · exfalso
        have hdiv : writeLoop fuel (captureHeader st content) content = none := by
          apply writeLoop_none_capture_big
          · rw [captureHeader_header, if_pos hcap]
          · exact hcap.2
          · rw [captureHeader_splitSize]
            exact hB
          · rw [captureHeader_splitSize]
            omega
          · rw [captureHeader_cur, hi.cur_idx]
            omega
        rw [hdiv] at h
        cases h
    · have hceq : captureHeader st content = st := by
        rw [captureHeader, if_neg hcap]
      rw [hceq] at h
      obtain ⟨h1, h2, h3, h4⟩ := writeLoop_inv hB hi h
      refine ⟨h1, h2, h4, ?_⟩
      rw [h3, if_neg hcap]

/-- A terminating sequence of writes preserves the invariant and the
header-stripped output stream is exactly the concatenation of the inputs. -/
theorem writeAll_inv {fuel : Nat} {ws : List (List Char)} {st st' : WState}
    (hi : WInv st) (h : FileWriter.writeAll fuel st ws = some st') :
    WInv st' ∧ st'.splitSize = st.splitSize ∧
      strippedConcat st' = strippedConcat st ++ ws.flatten := by
  induction ws generalizing st with
  | nil =>
    rw [FileWriter.writeAll] at h
    cases h
    exact ⟨hi, rfl, by simp⟩
  | cons w ws ih =>
    rw [FileWriter.writeAll] at h
    cases hw : FileWriter.write fuel st w with
    | none =>
      rw [hw] at h
      cases h
    | some st1 =>
      rw [hw] at h
      obtain ⟨h1, h2, h3, _⟩ := fwWrite_inv hi hw
      obtain ⟨g1, g2, g3⟩ := ih h1 h
      refine ⟨g1, by rw [g2, h2], ?_⟩
      rw [g3, h3]
      simp

theorem WInv_init (splitKB : Nat) : WInv (FileWriter.init splitKB) := by
  refine ⟨?_, ?_, ?_, rfl, rfl, ?_, ?_⟩
  · intro f hf
    have hf2 : f = initNewFile (splitKB * 1024) none 1 := by
      simpa [FileWriter.init, WState.files] using hf
    rw [hf2]
    exact goodFile_initNewFile (fun h hh => by cases hh)
  · intro h hh
    cases hh
  · intro h hh
    cases hh
  · show List.map (fun f => f.index) [initNewFile (splitKB * 1024) none 1]
      = List.range' 1 [initNewFile (splitKB * 1024) none 1].length
    simp [initNewFile_index, List.range']
  · intro _
    rfl

theorem strippedConcat_init (splitKB : Nat) :
    strippedConcat (FileWriter.init splitKB) = [] := by
  rw [FileWriter.init, strippedConcat]
  show ([initNewFile (splitKB * 1024) none 1].map stripFile).flatten = []
  rw [List.map_singleton, stripFile_initNewFile]
  rfl

theorem writeLoop_header {fuel : Nat} {st : WState} {rem : List Char} {st' : WState}
    (h : writeLoop fuel st rem = some st') : st'.header = st.header := by
  induction fuel generalizing st rem with
  | zero =>
    cases rem with
    | nil =>
      rw [writeLoop] at h
      cases h
      rfl
    | cons a rest =>
      rw [writeLoop] at h
      cases h
  | succ n ih =>
    cases rem with
    | nil =>
      rw [writeLoop] at h
      cases h
      rfl
    | cons a rest =>
      rw [writeLoop] at h
      split_ifs at h with h1 h2
      · cases h
        rw [writeChunk_header, loopState_header]
      · rw [ih h, loopState_header]
      · cases hfd : findDecodable (utf8Encode (a :: rest)) (loopAvail (loopState st)).toNat
          with
        | some c0 =>
          rw [hfd] at h
          rw [ih h, rollover_header, writeChunk_header, loopState_header]
        | none =>
          rw [hfd] at h
          rw [ih h, rollover_header, writeChunk_header, loopState_header]

theorem fwWrite_header {fuel : Nat} {st : WState} {content : List Char} {st' : WState}
    (h : FileWriter.write fuel st content = some st') :
    st'.header = (captureHeader st content).header := by
  rw [FileWriter.write] at h
  split_ifs at h
  · cases h
    rw [writeChunk_header]
  · exact writeLoop_header h

theorem seeded_chunk {st : WState} {h0 : List Char} {c : List Char} {b : Bool}
    (hf : ∀ f ∈ st.files, 1 < f.index → f.hdr = h0) :
    ∀ f ∈ (writeChunk st c b).files, 1 < f.index → f.hdr = h0 := by
  intro f hf2 hidx
  rw [files_writeChunk] at hf2
  rcases List.mem_append.mp hf2 with hf2 | hf2
  · exact hf f (by simp [WState.files, hf2]) hidx
  · rw [List.mem_singleton.mp hf2] at hidx ⊢
    exact hf st.cur (by simp [WState.files]) hidx

theorem initNewFile_hdr_seeded {B : Nat} {hdr : Option (List Char)} {h0 : List Char}
    {idx : Nat} (hh : hdr = some h0) (hidx : 1 < idx) :
    (initNewFile B hdr idx).hdr = h0 := by
  rw [hh, initNewFile, if_pos hidx]

theorem seeded_rollover {st : WState} {h0 : List Char}
    (hh : st.header = some h0)
    (hf : ∀ f ∈ st.files, 1 < f.index → f.hdr = h0) :
    ∀ f ∈ (rollover st).files, 1 < f.index → f.hdr = h0 := by
  intro f hf2 hidx
  rw [files_rollover] at hf2
  rcases List.mem_append.mp hf2 with hf2 | hf2
  · exact hf f hf2 hidx
  · rw [List.mem_singleton.mp hf2]
    rw [List.mem_singleton.mp hf2, initNewFile_index] at hidx
    exact initNewFile_hdr_seeded hh hidx

theorem seeded_loopState {st : WState} {h0 : List Char}
    (hh : st.header = some h0)
    (hf : ∀ f ∈ st.files, 1 < f.index → f.hdr = h0) :
    ∀ f ∈ (loopState st).files, 1 < f.index → f.hdr = h0 := by
  rw [loopState]
  split
  · exact seeded_rollover hh hf
  · exact hf

theorem writeLoop_seeded {fuel : Nat} {st : WState} {rem : List Char} {st' : WState}
    {h0 : List Char} (hh : st.header = some h0)
    (hf : ∀ f ∈ st.files, 1 < f.index → f.hdr = h0)
    (h : writeLoop fuel st rem = some st') :
    ∀ f ∈ st'.files, 1 < f.index → f.hdr = h0 := by
  induction fuel generalizing st rem with
  | zero =>
    cases rem with
    | nil =>
      rw [writeLoop] at h
      cases h
      exact hf
    | cons a rest =>
      rw [writeLoop] at h
      cases h
  | succ n ih =>
    cases rem with
    | nil =>
      rw [writeLoop] at h
      cases h
      exact hf
    | cons a rest =>
      rw [writeLoop] at h
      have hLh : (loopState st).header = some h0 := by
        rw [loopState_header]
        exact hh
      have hLf := seeded_loopState hh hf
      split_ifs at h with h1 h2
      · cases h
        exact seeded_chunk hLf
      · exact ih hLh hLf h
      · cases hfd : findDecodable (utf8Encode (a :: rest)) (loopAvail (loopState st)).toNat
          with
        | some c0 =>
          rw [hfd] at h
          refine ih ?_ ?_ h
          · rw [rollover_header, writeChunk_header]
            exact hLh
          · apply seeded_rollover
            · rw [writeChunk_header]
              exact hLh
            · exact seeded_chunk hLf
        | none =>
          rw [hfd] at h
          refine ih ?_ ?_ h
          · rw [rollover_header, writeChunk_header]
            exact hLh
          · apply seeded_rollover
            · rw [writeChunk_header]
              exact hLh
            · exact seeded_chunk hLf

theorem fwWrite_seeded {fuel : Nat} {st : WState} {content : List Char} {st' : WState}
    {h0 : List Char} (hh : (captureHeader st content).header = some h0)
    (hf : ∀ f ∈ st.files, 1 < f.index → f.hdr = h0)
    (h : FileWriter.write fuel st content = some st') :
    st'.header = some h0 ∧ ∀ f ∈ st'.files, 1 < f.index → f.hdr = h0 := by
  have hf2 : ∀ f ∈ (captureHeader st content).files, 1 < f.index → f.hdr = h0 := by
    rw [captureHeader_files]
    exact hf
  constructor
  · rw [fwWrite_header h, hh]
  · rw [FileWriter.write] at h
    split_ifs at h
    · cases h
      exact seeded_chunk hf2
    · exact writeLoop_seeded hh hf2 h

theorem writeAll_seeded {fuel : Nat} {ws : List (List Char)} {st st' : WState}
    {h0 : List Char} (hh : st.header = some h0)
    (hf : ∀ f ∈ st.files, 1 < f.index → f.hdr = h0)
    (h : FileWriter.writeAll fuel st ws = some st') :
    st'.header = some h0 ∧ ∀ f ∈ st'.files, 1 < f.index → f.hdr = h0 := by
  induction ws generalizing st with
  | nil =>
    rw [FileWriter.writeAll] at h
    cases h
    exact ⟨hh, hf⟩
  | cons w ws ih =>
    rw [FileWriter.writeAll] at h
    cases hw : FileWriter.write fuel st w with
    | none =>
      rw [hw] at h
      cases h
    | some st1 =>
      rw [hw] at h
      have hcap : (captureHeader st w).header = some h0 := by
        rw [captureHeader_header, if_neg (by simp [hh])]
        exact hh
      obtain ⟨g1, g2⟩ := fwWrite_seeded hcap hf hw
      exact ih g1 g2 h

theorem nohdr_chunk {st : WState} {c : List Char} {b : Bool}
    (hf : ∀ f ∈ st.files, f.hdr = []) :
    ∀ f ∈ (writeChunk st c b).files, f.hdr = [] := by
  intro f hf2
  rw [files_writeChunk] at hf2
  rcases List.mem_append.mp hf2 with hf2 | hf2
  · exact hf f (by simp [WState.files, hf2])
  · rw [List.mem_singleton.mp hf2]
    exact hf st.cur (by simp [WState.files])

theorem nohdr_rollover {st : WState} (hh : st.header = none)
    (hf : ∀ f ∈ st.files, f.hdr = []) :
    ∀ f ∈ (rollover st).files, f.hdr = [] := by
  intro f hf2
  rw [files_rollover] at hf2
  rcases List.mem_append.mp hf2 with hf2 | hf2
  · exact hf f hf2
  · rw [List.mem_singleton.mp hf2, hh, initNewFile]

theorem nohdr_loopState {st : WState} (hh : st.header = none)
    (hf : ∀ f ∈ st.files, f.hdr = []) :
    ∀ f ∈ (loopState st).files, f.hdr = [] := by
  rw [loopState]
  split
  · exact nohdr_rollover hh hf
  · exact hf

theorem writeLoop_nohdr {fuel : Nat} {st : WState} {rem : List Char} {st' : WState}
    (hh : st.header = none) (hf : ∀ f ∈ st.files, f.hdr = [])
    (h : writeLoop fuel st rem = some st') :
    ∀ f ∈ st'.files, f.hdr = [] := by
  induction fuel generalizing st rem with
  | zero =>
    cases rem with
    | nil =>
      rw [writeLoop] at h
      cases h
      exact hf
    | cons a rest =>
      rw [writeLoop] at h
      cases h
  | succ n ih =>
    cases rem with
    | nil =>
      rw [writeLoop] at h
      cases h
      exact hf
    | cons a rest =>
      rw [writeLoop] at h
      have hLh : (loopState st).header = none := by
        rw [loopState_header]
        exact hh
      have hLf := nohdr_loopState hh hf
      split_ifs at h with h1 h2
      · cases h
        exact nohdr_chunk hLf
      · exact ih hLh hLf h
      · cases hfd : findDecodable (utf8Encode (a :: rest)) (loopAvail (loopState st)).toNat
          with
        | some c0 =>
          rw [hfd] at h
          refine ih ?_ ?_ h
          · rw [rollover_header, writeChunk_header]
            exact hLh
          · apply nohdr_rollover
            · rw [writeChunk_header]
              exact hLh
            · exact nohdr_chunk hLf
        | none =>
          rw [hfd] at h
          refine ih ?_ ?_ h
          · rw [rollover_header, writeChunk_header]
            exact hLh
          · apply nohdr_rollover
            · rw [writeChunk_header]
              exact hLh
            · exact nohdr_chunk hLf

theorem fwWrite_nohdr {fuel : Nat} {st : WState} {content : List Char} {st' : WState}
    (hh : st.header = none) (hnp : ['#', ' '].isPrefixOf content = false)
    (hf : ∀ f ∈ st.files, f.hdr = [])
    (h : FileWriter.write fuel st content = some st') :
    st'.header = none ∧ ∀ f ∈ st'.files, f.hdr = [] := by
  have hceq : captureHeader st content = st := by
    rw [captureHeader, if_neg (by simp [hnp])]
  constructor
  · rw [fwWrite_header h, hceq]
    exact hh
  · rw [FileWriter.write, hceq] at h
    split_ifs at h
    · cases h
      exact nohdr_chunk hf
    · exact writeLoop_nohdr hh hf h

theorem writeAll_nohdr {fuel : Nat} {ws : List (List Char)} {st st' : WState}
    (hh : st.header = none)
    (hnp : ∀ w ∈ ws, ['#', ' '].isPrefixOf w = false)
    (hf : ∀ f ∈ st.files, f.hdr = [])
    (h : FileWriter.writeAll fuel st ws = some st') :
    st'.header = none ∧ ∀ f ∈ st'.files, f.hdr = [] := by
  induction ws generalizing st with
  | nil =>
    rw [FileWriter.writeAll] at h
    cases h
    exact ⟨hh, hf⟩
  | cons w ws ih =>
    rw [FileWriter.writeAll] at h
    cases hw : FileWriter.write fuel st w with
    | none =>
      rw [hw] at h
      cases h
    | some st1 =>
      rw [hw] at h
      obtain ⟨g1, g2⟩ := fwWrite_nohdr hh (hnp w (by simp)) hf hw
      exact ih g1 (fun v hv => hnp v (by simp [hv])) g2 h

theorem writeAll_header_some {fuel : Nat} {ws : List (List Char)} {st st' : WState}
    {h0 : List Char} (hh : st.header = some h0)
    (h : FileWriter.writeAll fuel st ws = some st') : st'.header = some h0 := by
  induction ws generalizing st with
  | nil =>
    rw [FileWriter.writeAll] at h
    cases h
    exact hh
  | cons w ws ih =>
    rw [FileWriter.writeAll] at h
    cases hw : FileWriter.write fuel st w with
    | none =>
      rw [hw] at h
      cases h
    | some st1 =>
      rw [hw] at h
      have h1 : st1.header = some h0 := by
        rw [fwWrite_header hw, captureHeader_header, if_neg (by simp [hh])]
        exact hh
      exact ih h1 h

/-- The captured header across a terminating run started with no header is
the first write whose text begins with the two-character prefix. -/
theorem writeAll_header_find {fuel : Nat} {ws : List (List Char)} {st st' : WState}
    (hh : st.header = none)
    (h : FileWriter.writeAll fuel st ws = some st') :
    st'.header = ws.find? (fun w => ['#', ' '].isPrefixOf w) := by
  induction ws generalizing st with
  | nil =>
    rw [FileWriter.writeAll] at h
    cases h
    rw [hh]
    rfl
  | cons w ws ih =>
    rw [FileWriter.writeAll] at h
    cases hw : FileWriter.write fuel st w with
    | none =>
      rw [hw] at h
      cases h
    | some st1 =>
      rw [hw] at h
      by_cases hp : ['#', ' '].isPrefixOf w = true
      · have h1 : st1.header = some w := by
          rw [fwWrite_header hw, captureHeader_header, if_pos ⟨hh, hp⟩]
        rw [writeAll_header_some h1 h, List.find?_cons_of_pos _ hp]
      · have h1 : st1.header = none := by
          rw [fwWrite_header hw, captureHeader_header,
            if_neg (by simp [Bool.not_eq_true] at hp; simp [hp])]
          exact hh
        rw [ih h1 h, List.find?_cons_of_neg _ (by simp [Bool.not_eq_true] at hp; simp [hp])]

/-- Whatever the rollover inside loopState does, the files already closed
stay closed in the same order. -/
theorem loopState_keeps_closed (st : WState) : st.closed <+: (loopState st).closed := by
  rw [loopState]
  split
  · rw [rollover]
    exact List.prefix_append st.closed [st.cur]
  · exact List.prefix_refl st.closed

/-- Files the splitting loop has closed are never touched again: after any
further number of iterations they are still there, unchanged and in order
(only the open file and newly created files change). -/
theorem writeLoopSteps_keeps_closed (n : Nat) (st : WState) (rem : List Char) :
    st.closed <+: (writeLoopSteps n st rem).1.closed := by
  induction n generalizing st rem with
  | zero =>
    cases rem with
    | nil => exact List.prefix_refl _
    | cons a l => exact List.prefix_refl _
  | succ n ih =>
    cases rem with
    | nil => exact List.prefix_refl _
    | cons a l =>
      rw [writeLoopSteps]
      split
      · exact loopState_keeps_closed st
      · split
        · exact (loopState_keeps_closed st).trans (ih (loopState st) (a :: l))
        · split
          · refine (loopState_keeps_closed st).trans (List.IsPrefix.trans ?_ (ih _ _))
            exact List.prefix_append _ _
          · refine (loopState_keeps_closed st).trans (List.IsPrefix.trans ?_ (ih _ _))
            exact List.prefix_append _ _

/-- C1 counterexample: a first write beginning with the two-character
prefix whose 1028 UTF-8 bytes exceed the 1 KB budget is captured as the
replicated header, and the splitting loop never terminates — for every
fuel the embedded loop returns none, mirroring utils.py 193-237: after the
first chunk, available_size is clamped to 0, every iteration rolls over to
a fresh file seeded with the whole 1028-byte header, and the recomputed
available_size is negative so neither inner branch runs.  Three iterations
into that run, file 2 is already closed holding exactly the seeded header:
a generated file whose final size 1028 exceeds the budget 1024 with no
forced-fallback chunk in it, and closed files are never modified by later
iterations — refuting the claimed bound for this (non-terminating)
sequence of write calls. -/
theorem c1_size_bound_cex :
    (∀ fuel, FileWriter.write fuel (FileWriter.init 1) c1w = none) ∧
    ((c1spin.1.closed.getD 1 default).size = 1028 ∧
      c1spin.1.splitSize < (c1spin.1.closed.getD 1 default).size ∧
      (c1spin.1.closed.getD 1 default).forced = 0) ∧
    (∀ n, c1spin.1.closed <+: (writeLoopSteps n c1spin.1 c1spin.2).1.closed) := by
  refine ⟨?_, by decide, fun n => writeLoopSteps_keeps_closed n c1spin.1 c1spin.2⟩
  intro fuel
  rw [FileWriter.write, if_neg (by decide)]
  exact writeLoop_none_capture_big rfl rfl (by decide) (by decide) (by decide)

/-- C1 amended: for every split budget B > 0 (B = splitKB·1024 bytes,
utils.py 110) and every terminating sequence of write calls (the loop runs
forever when a captured header's byte length exceeds B, closing an
unbounded series of header-only files that each exceed B — see the C1
counterexample), every generated output file holds at most one
forced-fallback chunk, every file without one has final UTF-8 byte size at
most B, and the size counter equals the UTF-8 byte length of the file's
full content with the seeded replicated header as a prefix — so the
header's byte length counts against the budget from the moment the split
file is created. -/
theorem c1_size_bound (fuel splitKB : Nat) (ws : List (List Char)) (st' : WState)
    (hkb : 0 < splitKB)
    (h : FileWriter.writeAll fuel (FileWriter.init splitKB) ws = some st') :
    ∀ f ∈ st'.files, f.forced ≤ 1 ∧
      (f.forced = 0 → utf8Len f.content ≤ splitKB * 1024) ∧
      f.size = utf8Len f.content ∧ f.hdr <+: f.content := by
  obtain ⟨hi, hsz, _⟩ := writeAll_inv (WInv_init splitKB) h
  intro f hf
  have hg := hi.files_good f hf
  have hBB : st'.splitSize = splitKB * 1024 := by
    rw [hsz]
    rfl
  refine ⟨hg.forced_le, ?_, hg.size_eq, hg.hdr_pre⟩
  intro hf0
  have hb := hg.bound (by rw [hBB]; positivity) hf0
  rw [hg.size_eq, hBB] at hb
  exact hb

theorem c1_size_bound_witness :
    0 < 1 ∧ ((c1run.files.getD 0 default).forced ≤ 1 ∧
      ((c1run.files.getD 0 default).forced = 0 →
        utf8Len (c1run.files.getD 0 default).content ≤ 1 * 1024) ∧
      (c1run.files.getD 0 default).size = utf8Len (c1run.files.getD 0 default).content ∧
      (c1run.files.getD 0 default).hdr <+: (c1run.files.getD 0 default).content) :=
  ⟨by decide,
    c1_size_bound 5 1 c1ws c1run (by decide) (by decide) (c1run.files.getD 0 default)
      (by decide)⟩

/-- C4: the claim is what the repository's own test suite expects
(tests/test_utils.py, test_force_overwrite: FileExistsError and unmodified
bytes), but the code does the opposite: constructing the writer over an
existing target without force_overwrite raises nothing — the existence
check at utils.py 147-151 only logs a warning — and write_text then
truncates the pre-existing file, destroying its bytes before any content
is written.  (merger.py 252-254 even catches a FileExistsError that
FileWriter never raises.) -/
theorem c4_overwrite_guard_violated :
    init_new_file_fs (some "Original content".toList) false none 1
      = { raised := false, warned := true, targetText := [] } ∧
    "Original content".toList ≠ ([] : List Char) := by
  constructor
  · rfl
  · decide

/-- C7 counterexample: the language tag the code produces for a .css file
is "html" (language_config.py line 47), not "css" as the claim states. -/
theorem c7_css_tag_cex :
    get_language_by_extension ".css" = "html" ∧ ("html" : String) ≠ "css" := by
  constructor
  · rfl
  · decide

/-- C7 amended: for every file whose extension is .css the fence language
tag equals "html" (css is bundled under the html language in the static
map); every extension absent from the static mapping yields "plaintext". -/
theorem c7_language_tag (ext : String)
    (h : FILE_EXTENSION_LANGUAGE_MAP.lookup (lowerExt ext) = none) :
    get_language_by_extension ".css" = "html" ∧
      get_language_by_extension ext = "plaintext" := by
  constructor
  · rfl
  · rw [get_language_by_extension, h]
    rfl

theorem c7_language_tag_witness :
    get_language_by_extension ".css" = "html" ∧
      get_language_by_extension ".unknown" = "plaintext" :=
  c7_language_tag ".unknown" (by decide)

/-- C8: get_file_content is a total function (it never raises to its
caller); an unopenable file yields the empty string; bytes that are not
valid UTF-8 go through the fallback ladder utf-16, latin-1, gb18030 in
that fixed order with the first successful decode returned — a BOM-carrying
UTF-16 file decodes to non-empty text, and when utf-16 also fails the
total latin-1 decode is returned, so the ladder never reaches gb18030. -/
theorem c8_read_fallback :
    get_file_content none = [] ∧
    (∀ bs s, utf8Decode bs = none → utf16Decode bs = some s →
      get_file_content (some bs) = s) ∧
    (∀ bs, utf8Decode bs = none → utf16Decode bs = none →
      get_file_content (some bs) = latin1Decode bs) ∧
    get_file_content (some helloUtf16) = "Hello World".toList ∧
    "Hello World".toList ≠ [] := by
  refine ⟨rfl, ?_, ?_, by decide, by decide⟩
  · intro bs s h8 h16
    rw [get_file_content, h8]
    show tryEncodings fallbackEncodings bs = s
    rw [fallbackEncodings, tryEncodings]
    show (match utf16Decode bs with
      | some s => s
      | none => tryEncodings [fun bs => some (latin1Decode bs), gb18030Decode] bs) = s
    rw [h16]
  · intro bs h8 h16
    rw [get_file_content, h8]
    show tryEncodings fallbackEncodings bs = latin1Decode bs
    rw [fallbackEncodings, tryEncodings]
    show (match utf16Decode bs with
      | some s => s
      | none => tryEncodings [fun bs => some (latin1Decode bs), gb18030Decode] bs) =
      latin1Decode bs
    rw [h16]
    rfl

theorem c8_read_fallback_witness :
    get_file_content (some [255, 216]) = latin1Decode [255, 216] :=
  c8_read_fallback.2.2.1 [255, 216] (by decide) (by decide)

/-- C10 counterexample: in the run c10run the header is captured only by
the third write; file 2 was created (by the forced-chunk rollover) before
the capture and was not seeded, yet its content happens to equal the later
header, so removing "the replicated header prefix from every file after
the first" — as the claim words it — deletes real data and the
concatenation no longer equals the concatenation of the write inputs. -/
theorem c10_strip_cex :
    FileWriter.writeAll 9 (FileWriter.init 1) c10ws = some c10run ∧
    claimStripped c10run ≠ c10ws.flatten := by
  constructor
  · decide
  · decide

/-- C10 amended: for every split budget and terminating sequence of write
calls, the concatenation of the final contents of all generated files,
with the replicated header removed from every file after the first that
was seeded with it (files created before any capture are stripped of
nothing), equals the concatenation of the write inputs: splitting loses,
duplicates and reorders nothing. -/
theorem c10_stream_preserved (fuel splitKB : Nat) (ws : List (List Char)) (st' : WState)
    (h : FileWriter.writeAll fuel (FileWriter.init splitKB) ws = some st') :
    strippedConcat st' = ws.flatten := by
  obtain ⟨_, _, h3⟩ := writeAll_inv (WInv_init splitKB) h
  rw [h3, strippedConcat_init]
  rfl

theorem c10_stream_preserved_witness :
    strippedConcat c10run2 = c10ws2.flatten :=
  c10_stream_preserved 9 1 c10ws2 c10run2 (by decide)

theorem take_eq_take_length (s : List Char) (k : Nat) :
    s.take k = s.take ((s.take k).length) := by
  rw [List.length_take]
  rcases le_or_lt k s.length with h | h
  · rw [Nat.min_eq_left h]
  · rw [Nat.min_eq_right (by omega), List.take_length, List.take_of_length_le (by omega)]

/-- C2: no generated file contains a truncated multi-byte UTF-8 sequence —
every file's on-disk bytes decode (strictly) back to exactly its text —
and every split point the chunk search selects falls between complete
scalar values: the chunk finally written is a character-aligned prefix of
the pending text. -/
theorem c2_no_split_code_point (fuel splitKB : Nat) (ws : List (List Char)) (st' : WState)
    (h : FileWriter.writeAll fuel (FileWriter.init splitKB) ws = some st') :
    (∀ f ∈ st'.files, utf8Decode f.bytes = some f.content) ∧
    (∀ (s c : List Char) (k : Nat), findDecodable (utf8Encode s) k = some c →
      truncAtNewline c = s.take (truncAtNewline c).length) := by
  constructor
  · obtain ⟨hi, _, _⟩ := writeAll_inv (WInv_init splitKB) h
    intro f hf
    rw [(hi.files_good f hf).bytes_eq]
    exact utf8Decode_utf8Encode f.content
  · intro s c k hfd
    obtain ⟨n0, hn0, hc0, _⟩ := findDecodable_encode hfd
    obtain ⟨m, hm, htr⟩ := truncAtNewline_take c
    have h1 : truncAtNewline c = s.take (min m n0) := by
      rw [htr, hc0, List.take_take]
    rw [h1]
    exact take_eq_take_length s (min m n0)

theorem c2_no_split_code_point_witness :
    utf8Decode (c2run.files.getD 0 default).bytes
      = some (c2run.files.getD 0 default).content ∧
    truncAtNewline ['a', '\n', 'b'] =
      ['a', '\n', 'b', 'c'].take (truncAtNewline ['a', '\n', 'b']).length :=
  ⟨(c2_no_split_code_point 5 1 c2ws c2run (by decide)).1 (c2run.files.getD 0 default)
      (by decide),
   (c2_no_split_code_point 5 1 c2ws c2run (by decide)).2 ['a', '\n', 'b', 'c']
      ['a', '\n', 'b'] 3 (by decide)⟩

/-- C9: for every terminating run, the generated files (in creation order,
exactly how generated_files accumulates them) carry indices 1, 2, 3, ...
strictly increasing and gap-free; with split budget > 0 the i-th file is
named stem_i_suffix, and with budget 0 exactly one file is produced with
the unmodified base name. -/
theorem c9_naming (fuel splitKB : Nat) (ws : List (List Char)) (st' : WState)
    (h : FileWriter.writeAll fuel (FileWriter.init splitKB) ws = some st') :
    st'.files.map (fun f => f.index) = List.range' 1 st'.files.length ∧
    (0 < splitKB → st'.files.map (fun f => f.name)
      = (List.range' 1 st'.files.length).map OutName.split) ∧
    (splitKB = 0 → st'.files.map (fun f => f.name) = [OutName.base]) := by
  obtain ⟨hi, hsz, _⟩ := writeAll_inv (WInv_init splitKB) h
  have hBB : st'.splitSize = splitKB * 1024 := by
    rw [hsz]
    rfl
  refine ⟨hi.idx_map, ?_, ?_⟩
  · intro hkb
    have hBne : st'.splitSize ≠ 0 := by
      rw [hBB]
      positivity
    have h1 : st'.files.map (fun f => f.name)
        = st'.files.map (fun f => OutName.split f.index) := by
      apply List.map_congr_left
      intro f hf
      rw [(hi.files_good f hf).name_eq, getFilename, if_neg hBne]
    rw [h1, ← hi.idx_map, List.map_map]
    rfl
  · intro hkb0
    have hB0 : st'.splitSize = 0 := by
      rw [hBB, hkb0]
    have hcl : st'.closed = [] := hi.zero_closed hB0
    show (st'.closed ++ [st'.cur]).map (fun f => f.name) = [OutName.base]
    rw [hcl]
    simp only [List.nil_append, List.map_cons, List.map_nil]
    rw [(hi.files_good st'.cur (by simp [WState.files])).name_eq, getFilename, if_pos hB0]

theorem c9_naming_witness :
    c9run.files.map (fun f => f.index) = List.range' 1 c9run.files.length ∧
    c9run.files.map (fun f => f.name)
      = (List.range' 1 c9run.files.length).map OutName.split :=
  ⟨(c9_naming 20 1 c9ws c9run (by decide)).1,
   (c9_naming 20 1 c9ws c9run (by decide)).2.1 (by decide)⟩

/-- C3 counterexample: a single formatted block of 1057 bytes written under
a 1 KB split budget is spread over three output files (21, 1024 and 12
characters), so the full block — heading through closing fence — appears
contiguously in none of them, let alone in exactly one. -/
theorem c3_block_split_cex :
    FileWriter.writeAll 9 (FileWriter.init 1) [c3block] = some c3run ∧
    c3run.files.length = 3 ∧
    ¬ c3block <:+: (c3run.files.getD 0 default).content ∧
    ¬ c3block <:+: (c3run.files.getD 1 default).content ∧
    ¬ c3block <:+: (c3run.files.getD 2 default).content := by
  refine ⟨by decide, by decide, ?_, ?_, ?_⟩ <;>
    exact fun hinf => absurd hinf.length_le (by decide)

/-- C3 amended: every included file's formatted block appears contiguously
in the header-stripped concatenation of the generated output files — never
split by other content and never interleaved with another file's block
(the writer lock serializes the whole block per write call) — though a
block exceeding the remaining split budget may span consecutive output
files rather than sit inside a single one. -/
theorem c3_block_contiguous (fuel splitKB : Nat) (doc : List Char)
    (blocks : List (List Char × List Char × List Char)) (st' : WState) (i : Nat)
    (hilt : i < blocks.length)
    (h : FileWriter.writeAll fuel (FileWriter.init splitKB)
      (doc :: blocks.map (fun t => formatBlock t.1 t.2.1 t.2.2)) = some st') :
    strippedConcat st'
      = (doc ++ ((blocks.take i).map (fun t => formatBlock t.1 t.2.1 t.2.2)).flatten)
        ++ formatBlock blocks[i].1 blocks[i].2.1 blocks[i].2.2
        ++ ((blocks.drop (i + 1)).map (fun t => formatBlock t.1 t.2.1 t.2.2)).flatten := by
  obtain ⟨_, _, h3⟩ := writeAll_inv (WInv_init splitKB) h
  rw [h3, strippedConcat_init, List.nil_append]
  have hsplit : blocks.map (fun t => formatBlock t.1 t.2.1 t.2.2)
      = (blocks.take i).map (fun t => formatBlock t.1 t.2.1 t.2.2)
        ++ formatBlock blocks[i].1 blocks[i].2.1 blocks[i].2.2
          :: (blocks.drop (i + 1)).map (fun t => formatBlock t.1 t.2.1 t.2.2) := by
    conv_lhs => rw [← List.take_append_drop i blocks]
    rw [List.map_append, List.drop_eq_getElem_cons hilt, List.map_cons]
  rw [List.flatten_cons, hsplit, List.flatten_append, List.flatten_cons]
  simp [List.append_assoc]

theorem c3_block_contiguous_witness :
    strippedConcat c3amdrun
      = (c3doc ++ ((c3blocks.take 1).map (fun t => formatBlock t.1 t.2.1 t.2.2)).flatten)
        ++ formatBlock (c3blocks.get ⟨1, by decide⟩).1 (c3blocks.get ⟨1, by decide⟩).2.1
            (c3blocks.get ⟨1, by decide⟩).2.2
        ++ ((c3blocks.drop 2).map (fun t => formatBlock t.1 t.2.1 t.2.2)).flatten :=
  c3_block_contiguous 9 1 c3doc c3blocks c3amdrun 1 (by decide) (by decide)

theorem matches_pattern_nil (p : PyPath) : matches_pattern p [] = false := rfl

theorem should_include_iff (cfg : MergerConfig) (p : PyPath) :
    should_include cfg p = true ↔
      (matches_pattern p cfg.filePatterns = true ∨
        (extensions cfg).contains p.suffix = true) := by
  rw [should_include]
  by_cases hm : matches_pattern p cfg.filePatterns = true
  · have hpne : cfg.filePatterns.isEmpty = false := by
      cases hfp : cfg.filePatterns with
      | nil =>
        rw [hfp] at hm
        exact absurd hm (by rw [matches_pattern_nil]; simp)
      | cons a l => rfl
    simp [hm, hpne]
  · by_cases hc : (extensions cfg).contains p.suffix = true
    · have hlne : cfg.languages.isEmpty = false := by
        cases hl : cfg.languages with
        | nil =>
          exfalso
          rw [extensions, hl] at hc
          simp at hc
        | cons a l => rfl
      simp [hm, hc, hlne]
    · have hc2 : p.suffix ∉ extensions cfg := by simpa using hc
      simp [hm, hc, hc2]

/-- C5: a filesystem entry is kept by find_files iff it is a regular file,
neither it nor any ancestor directory matches an ignore pattern, and it
matches a configured file pattern or its extension lies in a configured
language's extension set; and with zero languages and zero patterns
configured, nothing is included. -/
theorem c5_inclusion_iff (cfg : MergerConfig) (entries : List FsEntry) (e : FsEntry) :
    (e ∈ find_files cfg entries ↔
      e ∈ entries ∧ e.isFile = true ∧
      should_ignore cfg.ignorePatterns e.path = false ∧
      (∀ par ∈ e.parents, should_ignore cfg.ignorePatterns par = false) ∧
      (matches_pattern e.path cfg.filePatterns = true ∨
        (extensions cfg).contains e.path.suffix = true)) ∧
    (cfg.languages = [] → cfg.filePatterns = [] → find_files cfg entries = []) := by
  constructor
  · rw [find_files, List.mem_filter]
    constructor
    · rintro ⟨h1, h2⟩
      refine ⟨h1, ?_⟩
      simp only [Bool.and_eq_true, Bool.not_eq_true', Bool.or_eq_false_iff,
        List.any_eq_false] at h2
      obtain ⟨⟨hf, hig, hpar⟩, hinc⟩ := h2
      exact ⟨hf, hig, fun par hp => by simpa using hpar par hp,
        (should_include_iff cfg e.path).mp hinc⟩
    · rintro ⟨h1, hf, hig, hpar, hinc⟩
      refine ⟨h1, ?_⟩
      simp only [Bool.and_eq_true, Bool.not_eq_true', Bool.or_eq_false_iff,
        List.any_eq_false]
      exact ⟨⟨hf, hig, fun par hp => by simpa using hpar par hp⟩,
        (should_include_iff cfg e.path).mpr hinc⟩
  · intro hl hp
    rw [find_files]
    apply List.filter_eq_nil_iff.mpr
    intro a ha
    have hsi : should_include cfg a.path = false := by
      rw [should_include, hl, hp]
      rfl
    simp [hsi]

theorem c5_inclusion_iff_witness : c5entry ∈ find_files c5cfg [c5entry] :=
  (c5_inclusion_iff c5cfg [c5entry] c5entry).1.mpr
    ⟨by decide, by decide, by decide, by decide, Or.inl (by decide)⟩

/-- C6 counterexample: the first write ("hello") does not begin with the
two-character prefix, yet after a second write that does, the replicated
header is captured — the capture condition at utils.py 184 is "no header
captured yet", not "this is the very first write". -/
theorem c6_capture_cex :
    ['#', ' '].isPrefixOf "hello".toList = false ∧
    FileWriter.writeAll 5 (FileWriter.init 1) ["hello".toList, "# hi".toList]
      = some c6run ∧
    c6run.header = some "# hi".toList := by
  refine ⟨by decide, by decide, by decide⟩

/-- C6 amended: the replicated header is the first write whose text begins
with the two-character prefix, none when no write does; when the capture
happens on the very first write, every split file with index > 1 is seeded
with the header before any other content (the header is a prefix of the
file's content); when no write begins with the prefix, no file is seeded
with any header. -/
theorem c6_header_capture (fuel splitKB : Nat) (ws : List (List Char)) (st' : WState)
    (h : FileWriter.writeAll fuel (FileWriter.init splitKB) ws = some st') :
    st'.header = ws.find? (fun w => ['#', ' '].isPrefixOf w) ∧
    (∀ w0 ws0, ws = w0 :: ws0 → ['#', ' '].isPrefixOf w0 = true →
      ∀ f ∈ st'.files, 1 < f.index → f.hdr = w0 ∧ f.hdr <+: f.content) ∧
    (ws.find? (fun w => ['#', ' '].isPrefixOf w) = none →
      ∀ f ∈ st'.files, f.hdr = []) := by
  refine ⟨writeAll_header_find rfl h, ?_, ?_⟩
  · intro w0 ws0 hws hp f hf hidx
    subst hws
    have horig := h
    rw [FileWriter.writeAll] at h
    cases hw : FileWriter.write fuel (FileWriter.init splitKB) w0 with
    | none =>
      rw [hw] at h
      exact Option.noConfusion h
    | some st1 =>
      rw [hw] at h
      have h1 : FileWriter.writeAll fuel st1 ws0 = some st' := h
      have hcap : (captureHeader (FileWriter.init splitKB) w0).header = some w0 := by
        rw [captureHeader_header, if_pos ⟨rfl, hp⟩]
      have hf0 : ∀ g ∈ (FileWriter.init splitKB).files, 1 < g.index → g.hdr = w0 := by
        intro g hg hgidx
        have hg2 : g = initNewFile (splitKB * 1024) none 1 := by
          simpa [FileWriter.init, WState.files] using hg
        rw [hg2, initNewFile_index] at hgidx
        omega
      obtain ⟨g1, g2⟩ := fwWrite_seeded hcap hf0 hw
      obtain ⟨k1, k2⟩ := writeAll_seeded g1 g2 h1
      have hhdr := k2 f hf hidx
      refine ⟨hhdr, ?_⟩
      obtain ⟨hi, _, _⟩ := writeAll_inv (WInv_init splitKB) horig
      exact (hi.files_good f hf).hdr_pre
  · intro hfind f hf
    have hnp : ∀ w ∈ ws, ['#', ' '].isPrefixOf w = false := by
      intro w hw
      exact Bool.eq_false_iff.mpr (List.find?_eq_none.mp hfind w hw)
    have hf0 : ∀ g ∈ (FileWriter.init splitKB).files, g.hdr = [] := by
      intro g hg
      have hg2 : g = initNewFile (splitKB * 1024) none 1 := by
        simpa [FileWriter.init, WState.files] using hg
      rw [hg2, initNewFile]
    exact (writeAll_nohdr rfl hnp hf0 h).2 f hf

theorem c6_header_capture_witness :
    (c6run2.files.getD 1 default).hdr = "# h\n".toList ∧
    (c6run2.files.getD 1 default).hdr <+: (c6run2.files.getD 1 default).content :=
  (c6_header_capture 20 1 c6ws2 c6run2 (by decide)).2.1 "# h\n".toList
    [List.replicate 1500 'a'] rfl (by decide) (c6run2.files.getD 1 default) (by decide)
    (by decide)
